import Mathlib

/-!
Verification of the two combinatorial engines of the exam-seat-allocation
repository: the exam-timetable generator (`utils/timetable_generator.py`)
and the seat-allocation engine (`utils/allocation_engine.py`), together
with the capacity gate of the allocation route (`routes/allocation.py`).

The Python sources are shallowly embedded as executable Lean functions.
Calendar dates are modelled as natural numbers (day indices); Python's
`date + timedelta(days=1)` is `+ 1` and date comparison is `≤` on `Nat`.
Python dictionaries are modelled as association lists whose insert
operation overwrites in place (preserving the key's position, exactly as
CPython dicts preserve insertion order on overwrite), and Python sets
that are only tested for membership are modelled as lists.
-/

/-- Association-list lookup (Python `dict.get`). -/
def alLookup [DecidableEq κ] : List (κ × β) → κ → Option β
  | [], _ => none
  | (k, v) :: rest, key => if k = key then some v else alLookup rest key

/-- Association-list insert with overwrite, keeping the key position
(CPython dict assignment semantics). -/
def alInsert [DecidableEq κ] : List (κ × β) → κ → β → List (κ × β)
  | [], key, val => [(key, val)]
  | (k, v) :: rest, key, val =>
    if k = key then (key, val) :: rest else (k, v) :: alInsert rest key val

/-- First-occurrence deduplication with an explicit seen accumulator:
the order of Python dict keys built by repeated insertion. -/
def dedupFirstAux [DecidableEq α] (seen : List α) : List α → List α
  | [] => []
  | x :: xs => if x ∈ seen then dedupFirstAux seen xs else x :: dedupFirstAux (x :: seen) xs

/-- First-occurrence deduplication (Python dict-key order). -/
def dedupFirst [DecidableEq α] (l : List α) : List α := dedupFirstAux [] l

/-- Insert into a sorted list, used by the stable insertion sort below. -/
def insertLe (le : α → α → Bool) (x : α) : List α → List α
  | [] => [x]
  | y :: ys => if le x y then x :: y :: ys else y :: insertLe le x ys

/-- Stable insertion sort (models Python `sorted`, which is stable). -/
def sortLe (le : α → α → Bool) : List α → List α
  | [] => []
  | x :: xs => insertLe le x (sortLe le xs)

/-- Lexicographic order on character lists, matching Python string
comparison by code point. -/
def charListLe : List Char → List Char → Bool
  | [], _ => true
  | _ :: _, [] => false
  | a :: as, b :: bs => if a = b then charListLe as bs else decide (a < b)

/-- Python `s <= t` on strings. -/
def strLe (s t : String) : Bool := charListLe s.data t.data

/-- Python `sorted` on a list of strings. -/
def sortStrings (l : List String) : List String := sortLe strLe l

/-- Python `sorted` on a list of naturals. -/
def sortNats (l : List Nat) : List Nat := sortLe (fun a b => decide (a ≤ b)) l

/-- Python `str.upper()` (restricted to ASCII, which covers the
department and subject codes this system handles). -/
def pyUpper (s : String) : String := ⟨s.data.map Char.toUpper⟩

/-- Python `str.strip()` (ASCII whitespace). -/
def pyStrip (s : String) : String :=
  ⟨((s.data.dropWhile Char.isWhitespace).reverse.dropWhile Char.isWhitespace).reverse⟩

namespace Timetable

/-- One input row of `generate_timetable`: a dict with keys
`department_code`, `subject_code`, `subject_name` (absent values are
the empty string, which is falsy in Python). -/
structure Row where
  department_code : String
  subject_code : String
  subject_name : String
deriving Repr, DecidableEq

/-- One entry of the returned schedule:
the tuple `(date, dept_code, subject_code, subject_name)`. -/
structure Slot where
  date : Nat
  dept : String
  code : String
  name : String
deriving Repr, DecidableEq

/-- A `(dept_code, subject_code)` pair still to place (an element of
`items` / `unplaced`). -/
abbrev Item := String × String

/-- The mutable map `subject_code -> subject_name`. -/
abbrev NameMap := List (String × String)

/-- `names_from_rows`: build the `subject_code -> subject_name` map from
the rows (upper/strip as in the source; empty code or name skipped). -/
def names_from_rows (rows : List Row) : NameMap :=
  rows.foldl
    (fun m r =>
      let code := pyStrip (pyUpper r.subject_code)
      let name := pyStrip r.subject_name
      if code ≠ "" ∧ name ≠ "" then alInsert m code name else m)
    []

/-- Merge of the optional provided `subject_names_map` with
`names_from_rows` (provided entries win, rows fill missing codes). -/
def build_names_map (rows : List Row) : Option NameMap → NameMap
  | none => names_from_rows rows
  | some m =>
    (names_from_rows rows).foldl
      (fun acc p => if (alLookup acc p.1).isNone then alInsert acc p.1 p.2 else acc)
      m

/-- `items`: the `(dept_code, subject_code)` pairs to place, keeping rows
whose department and subject codes are non-empty (truthy). -/
def toItems (rows : List Row) : List Item :=
  (rows.filter (fun r => r.department_code ≠ "" ∧ r.subject_code ≠ "")).map
    (fun r => (pyUpper r.department_code, pyUpper r.subject_code))

/-- `max(dept_counts.values())`: the largest number of offerings held by
any single department. -/
def max_per_dept (items : List Item) : Nat :=
  ((dedupFirst (items.map Prod.fst)).map
    (fun d => (items.filter (fun p => p.1 = d)).length)).foldl max 0

/-- `get_subject_name`: resolve a subject name from the map, defaulting
to the code itself. -/
def get_subject_name (m : NameMap) (code : String) : String :=
  (alLookup m code).getD code

/-- `count_subject_names_on_date(...)[name]` (with defaultdict semantics):
how many schedule slots on `d` carry subject name `n`. -/
def count_on_date (schedule : List Slot) (d : Nat) (n : String) : Nat :=
  (schedule.filter (fun s => s.date = d ∧ s.name = n)).length

/-- `can_fit_subject_in_gap`: the subject name must have fewer than two
slots on the gap date. -/
def can_fit_subject_in_gap (schedule : List Slot) (_subj_code subj_name : String)
    (gap_date : Nat) : Bool :=
  decide (count_on_date schedule gap_date subj_name < 2)

/-- `find_gaps_for_department`: all dates strictly between the
department's earliest scheduled date and `current` on which the
department has no slot, in chronological order. -/
def find_gaps_for_department (schedule : List Slot) (dept_code : String)
    (current : Nat) : List Nat :=
  let datesWithDept := ((schedule.filter (fun s => s.dept = dept_code)).map Slot.date)
  match datesWithDept with
  | [] => []
  | d :: ds =>
    let earliest := ds.foldl Nat.min d
    (List.range' earliest (current - earliest)).filter (fun g => g ∉ datesWithDept)

/-- `get_remaining_subjects_for_dept`: subject codes of `unplaced`
entries of this department. -/
def get_remaining_subjects_for_dept (unplaced : List Item) (dept_code : String) :
    List String :=
  (unplaced.filter (fun p => p.1 = dept_code)).map Prod.snd

/-- `shuffle_and_pick_subject`: first alternative subject (in sorted
order over the department's unplaced subject codes) that is not the
blocked code, not excluded, and whose name has fewer than two slots. -/
def shuffle_and_pick_subject (unplaced : List Item) (m : NameMap)
    (dept subject_code : String) (subject_name_counts : String → Nat)
    (excluded_code_set : List String) : Option String :=
  let available := sortStrings (dedupFirst
    ((unplaced.filter (fun p => p.1 = dept)).map Prod.snd))
  available.find? (fun alt =>
    !(alt = subject_code : Bool) && !(excluded_code_set.contains alt)
      && decide (subject_name_counts (get_subject_name m alt) < 2))

/-- One gap date of `backfill_gaps`' inner loop for one department.
The accumulator is the pair (schedule, backfilled subject codes). -/
def backfill_gap_step (m : NameMap) (unplacedAll : List Item) (dept_code : String)
    (department_subjects : List String) (acc : List Slot × List String)
    (gap_date : Nat) : List Slot × List String :=
  let sched := acc.1
  let backfilled := acc.2
  let still_subject_list := department_subjects.filter (fun s => ¬ backfilled.contains s)
  if still_subject_list.isEmpty then acc
  else
    match still_subject_list.find?
        (fun s => can_fit_subject_in_gap sched s (get_subject_name m s) gap_date) with
    | some s =>
      (sched ++ [⟨gap_date, dept_code, s, get_subject_name m s⟩], backfilled ++ [s])
    | none =>
      let remaining_in_dept :=
        (get_remaining_subjects_for_dept unplacedAll dept_code).filter
          (fun s => ¬ backfilled.contains s)
      match remaining_in_dept with
      | [] => acc
      | r0 :: _ =>
        match shuffle_and_pick_subject unplacedAll m dept_code r0
            (fun n => count_on_date sched gap_date n) [] with
        | none => acc
        | some alternate =>
          let alt_name := get_subject_name m alternate
          if can_fit_subject_in_gap sched alternate alt_name gap_date then
            (sched ++ [⟨gap_date, dept_code, alternate, alt_name⟩], backfilled ++ [alternate])
          else acc

/-- The scheduling state: the schedule built so far and the still
unplaced items. -/
structure TState where
  schedule : List Slot
  unplaced : List Item
deriving Repr, DecidableEq

/-- `backfill_gaps`: for each department with unplaced subjects (in
first-appearance order), try to fill its gap dates; finally remove every
backfilled subject code from `unplaced` (note: removal is by subject
code only, across all departments, as in the source). -/
def backfill_gaps (m : NameMap) (st : TState) (current : Nat) : TState :=
  let still_unplaced := st.unplaced
  let deptOrder := dedupFirst (still_unplaced.map Prod.fst)
  let res := deptOrder.foldl
    (fun acc dept_code =>
      let gaps := find_gaps_for_department acc.1 dept_code current
      gaps.foldl
        (backfill_gap_step m st.unplaced dept_code
          (get_remaining_subjects_for_dept still_unplaced dept_code))
        acc)
    (st.schedule, ([] : List String))
  ⟨res.1, still_unplaced.filter (fun p => ¬ res.2.contains p.2)⟩

/-- The fold accumulator of the per-date placement loop of
`generate_timetable`. -/
structure DayAcc where
  dept_assigned : List String
  counts : String → Nat
  scheduled_codes : List String
  still : List Item
  schedule : List Slot

/-- One `(dept, subj_code)` iteration of the per-date placement loop. -/
def place_one (m : NameMap) (unplacedAll : List Item) (current : Nat)
    (acc : DayAcc) (item : Item) : DayAcc :=
  if item.1 ∈ acc.dept_assigned then { acc with still := acc.still ++ [item] }
  else
    let subj_name := get_subject_name m item.2
    let chosen : Option (String × String) :=
      if acc.counts subj_name ≥ 2 then
        match shuffle_and_pick_subject unplacedAll m item.1 item.2 acc.counts
            acc.scheduled_codes with
        | some alt => some (alt, get_subject_name m alt)
        | none => none
      else some (item.2, subj_name)
    match chosen with
    | none => { acc with still := acc.still ++ [item] }
    | some (code, nm) =>
      { dept_assigned := item.1 :: acc.dept_assigned
        counts := fun x => if x = nm then acc.counts x + 1 else acc.counts x
        scheduled_codes := code :: acc.scheduled_codes
        still := acc.still
        schedule := acc.schedule ++ [⟨current, item.1, code, nm⟩] }

/-- The full per-date placement loop over `unplaced`. -/
def place_day (m : NameMap) (st : TState) (current : Nat) : TState :=
  let acc := st.unplaced.foldl (place_one m st.unplaced current)
    ⟨[], fun _ => 0, [], [], st.schedule⟩
  ⟨acc.schedule, acc.still⟩

/-- The main day loop of `generate_timetable`; the fuel is the remaining
day budget (`max_dates - days_tried`, decremented on every iteration,
excluded days included). -/
def run_days (m : NameMap) (excluded : List Nat) : Nat → Nat → TState → TState
  | 0, _, st => st
  | fuel + 1, current, st =>
    if st.unplaced.isEmpty then st
    else if current ∈ excluded then run_days m excluded fuel (current + 1) st
    else
      let st1 := backfill_gaps m st current
      let st2 := if st1.unplaced.isEmpty then st1 else place_day m st1 current
      run_days m excluded fuel (current + 1) st2

/-- `generate_timetable` (dates as day numbers, the excluded-date set
already parsed). Returns the schedule and the final names map. -/
def generate_timetable (rows : List Row) (start_date : Nat) (excluded : List Nat)
    (subject_names_map : Option NameMap) : List Slot × NameMap :=
  let m := build_names_map rows subject_names_map
  let items := toItems rows
  if items.isEmpty then ([], m)
  else
    let max_dates := max_per_dept items * 2 + 30
    let final := run_days m excluded max_dates start_date ⟨[], items⟩
    (final.schedule, m)

/-- Invariant C1: on every date, every subject name occupies at most two
slots. -/
def NameOK (sched : List Slot) : Prop := ∀ d n, count_on_date sched d n ≤ 2

/-- Invariant C2: on every date, the departments of the slots are
pairwise distinct. -/
def DeptOK (sched : List Slot) : Prop :=
  ∀ d, (sched.filter (fun s => s.date = d)).Pairwise (fun s1 s2 => s1.dept ≠ s2.dept)

/-- All slot dates lie strictly before `c`. -/
def DateLt (sched : List Slot) (c : Nat) : Prop := ∀ s ∈ sched, s.date < c

/-- Department `dept` has no slot on date `g`. -/
def deptFree (sched : List Slot) (dept : String) (g : Nat) : Prop :=
  ∀ s ∈ sched, s.dept = dept → s.date ≠ g

/-- Order on slots by `(date, department)`, used to compare schedules
up to output order. -/
def slotLe (a b : Slot) : Bool :=
  if a.date = b.date then strLe a.dept b.dept else decide (a.date ≤ b.date)

/-- A schedule sorted by date then department. -/
def sortSchedule (l : List Slot) : List Slot := sortLe slotLe l

end Timetable

namespace Allocation

/-- A student row (`Student.id`, `roll_number`, `name`). -/
structure Student where
  sid : Nat
  roll : String
  sname : String
deriving Repr, DecidableEq

/-- An exam hall (`ExamHall.id`, `hall_number`, `capacity`). -/
structure ExamHall where
  hid : Nat
  hall_number : String
  capacity : Nat
deriving Repr, DecidableEq

/-- The student tuple `(s.id, s.roll_number, s.name, dept_id, subj_id,
subj_name)` stored in the pools and in each allocation. -/
structure StuTuple where
  sid : Nat
  roll : String
  sname : String
  dept : Nat
  subj : Nat
  subjName : String
deriving Repr, DecidableEq

/-- A `(dept_id, subject_id)` pool key. -/
abbrev Key := Nat × Nat

/-- The mutable queues per `(dept, subject)`. -/
abbrev Pools := List (Key × List StuTuple)

/-- A `hall_matrix` value: `(dept_id, subj_id, subj_name)`. -/
structure MatEntry where
  dept : Nat
  subj : Nat
  name : String
deriving Repr, DecidableEq

/-- One hall's seat matrix, keyed by `(bench, position)`. -/
abbrev Matrix := List ((Nat × Nat) × MatEntry)

/-- One element of the returned allocation list:
`(hall_id, bench, position, student_tuple)`. -/
structure Alloc where
  hall : Nat
  bench : Nat
  pos : Nat
  stu : StuTuple
deriving Repr, DecidableEq

/-- Historical default layout: 15 benches × 3 positions. -/
def TARGET_CAPACITY : Nat := 45

/-- The evolving allocation state (pools, output list, per-hall seat
matrices and seat lists, and the dominant-pair rotation index). -/
structure AllocState where
  pools : Pools
  allocs : List Alloc
  matrices : List (Nat × Matrix)
  seats : List (Nat × List (Nat × Nat))
  dpi : Nat
deriving Repr

/-- `count_remaining`: total students left in the pools. -/
def count_remaining (pools : Pools) : Nat :=
  (pools.map (fun p => p.2.length)).sum

/-- `keys_by_dept[d]`: the initial pool keys of department `d`, in pool
insertion order. -/
def keys_for_dept (initKeys : List Key) (d : Nat) : List Key :=
  initKeys.filter (fun k => k.1 = d)

/-- `get_dept_remaining`. -/
def get_dept_remaining (pools : Pools) (initKeys : List Key) (d : Nat) : Nat :=
  ((keys_for_dept initKeys d).map (fun k => ((alLookup pools k).getD []).length)).sum

/-- `subject_conflict_in_hall`: the subject is already assigned to a
different department in this hall. -/
def subject_conflict_in_hall (hsd : List (Nat × Nat)) (dept_id subj_id : Nat) : Bool :=
  match alLookup hsd subj_id with
  | none => false
  | some d => decide (d ≠ dept_id)

/-- `get_adjacent_same_subject_name`: some adjacent seat (per the
source's neighbour lists) holds the same subject name. -/
def get_adjacent_same_subject_name (matrix : Matrix) (subj_name : String)
    (bench pos : Nat) : Bool :=
  let adj : List (Nat × Nat) :=
    if pos = 1 then [(bench, 2)]
    else if pos = 2 then [(bench, 1), (bench, 3)]
    else [(bench, 2)]
  adj.any (fun q =>
    match alLookup matrix q with
    | some e => e.name = subj_name
    | none => false)

/-- The seat scan order of `find_valid_seat`: benches `1..benches`,
positions `1..spb`. -/
def seatList (benches spb : Nat) : List (Nat × Nat) :=
  (List.range' 1 benches).flatMap (fun b => (List.range' 1 spb).map (fun p => (b, p)))

/-- `find_valid_seat`: first free seat with no same-subject-name
neighbour. -/
def find_valid_seat (matrix : Matrix) (subj_name : String) (benches spb : Nat) :
    Option (Nat × Nat) :=
  (seatList benches spb).find? (fun q =>
    (alLookup matrix q).isNone && !get_adjacent_same_subject_name matrix subj_name q.1 q.2)

/-- `pop_student`: pop the front of the queue at `k`, if any. -/
def pop_student (pools : Pools) (k : Key) : Option (StuTuple × Pools) :=
  match alLookup pools k with
  | none => none
  | some [] => none
  | some (stu :: rest) => some (stu, alInsert pools k rest)

/-- `get_keys_for_depts`: keys of the allowed departments whose pools
are non-empty. -/
def get_keys_for_depts (pools : Pools) (initKeys : List Key) (allowed : List Nat) :
    List Key :=
  allowed.flatMap (fun d =>
    (keys_for_dept initKeys d).filter (fun k => ¬((alLookup pools k).getD []).isEmpty))

/-- The number of students already seated in hall `hid`. -/
def msize (st : AllocState) (hid : Nat) : Nat :=
  ((alLookup st.matrices hid).getD []).length

/-- The `for (dept_id, subj_id) in keys` placement attempt: returns
whether a student was placed, the new state, and the new
`hall_subject_dept` map.  A popped student who finds no valid seat is
pushed back to the front of their queue, which restores the pool
exactly, so that branch leaves the state unchanged. -/
def try_place_keys (hid benches spb : Nat) (hsd : List (Nat × Nat)) :
    List Key → AllocState → Bool × AllocState × List (Nat × Nat)
  | [], st => (false, st, hsd)
  | k :: rest, st =>
    if subject_conflict_in_hall hsd k.1 k.2 then try_place_keys hid benches spb hsd rest st
    else
      match pop_student st.pools k with
      | none => try_place_keys hid benches spb hsd rest st
      | some (stu, pools') =>
        match find_valid_seat ((alLookup st.matrices hid).getD []) stu.subjName benches spb with
        | some q =>
          (true,
           { st with
             pools := pools'
             allocs := st.allocs ++ [⟨hid, q.1, q.2, stu⟩]
             matrices := alInsert st.matrices hid
               (((alLookup st.matrices hid).getD []) ++ [(q, ⟨k.1, k.2, stu.subjName⟩)])
             seats := alInsert st.seats hid (((alLookup st.seats hid).getD []) ++ [q]) },
           if (alLookup hsd k.2).isNone then hsd ++ [(k.2, k.1)] else hsd)
        | none => try_place_keys hid benches spb hsd rest st

/-- The fixed configuration computed once at the top of `allocate_seats`. -/
structure Cfg where
  spb : Nat
  benches_per_hall : Nat
  target_capacity : Option Nat
  initKeys : List Key
  all_depts : List Nat
  smaller_depts : List Nat
  dominant_dept : Option Nat

/-- The Phase-1 per-hall `while` loop.  `fuel` bounds the iteration
count; every iteration either places a student (bounded by the target),
adds a department to `allowed` (bounded by the department count), or
terminates, so the generous fuel passed by `phase1` is never exhausted. -/
def fill_hall_loop (cfg : Cfg) (hid benches target : Nat) :
    Nat → List Nat → List (Nat × Nat) → Bool → AllocState → AllocState
  | 0, _, _, _, st => st
  | fuel + 1, allowed, hsd, placed, st =>
    if msize st hid < target ∧ (placed ∨ 0 < count_remaining st.pools) then
      let keys0 := get_keys_for_depts st.pools cfg.initKeys allowed
      let dept_order := sortNats (dedupFirst allowed)
      let keys :=
        if 2 ≤ dept_order.length then
          let next_dept := dept_order.getD (msize st hid % 2) 0
          keys0.filter (fun k => k.1 = next_dept) ++ keys0.filter (fun k => ¬ k.1 = next_dept)
        else keys0
      match try_place_keys hid benches cfg.spb hsd keys st with
      | (true, st1, hsd1) => fill_hall_loop cfg hid benches target fuel allowed hsd1 true st1
      | (false, st1, hsd1) =>
        if msize st1 hid < target then
          let remaining_depts := cfg.all_depts.filter
            (fun d => 0 < get_dept_remaining st1.pools cfg.initKeys d ∧ ¬ allowed.contains d)
          match remaining_depts.find? (fun d =>
              let d_keys := (keys_for_dept cfg.initKeys d).filter
                (fun k => ¬((alLookup st1.pools k).getD []).isEmpty)
              !d_keys.isEmpty && d_keys.any (fun k => !subject_conflict_in_hall hsd1 k.1 k.2)) with
          | some d => fill_hall_loop cfg hid benches target fuel (allowed ++ [d]) hsd1 true st1
          | none => st1
        else fill_hall_loop cfg hid benches target fuel allowed hsd1 false st1
    else st

/-- Effective bench count for a hall (`15` for the historical 45-seat
layout, otherwise `max 1 (ceil (capacity / spb))`; a zero/None capacity
is falsy in Python and falls back to 45). -/
def hall_benches (cfg : Cfg) (h : ExamHall) : Nat :=
  let cap0 := if h.capacity = 0 then TARGET_CAPACITY else h.capacity
  if cap0 = TARGET_CAPACITY then cfg.benches_per_hall
  else max 1 ((cap0 + cfg.spb - 1) / cfg.spb)

/-- Effective per-hall target (optionally capped by `target_capacity`). -/
def hall_target (cfg : Cfg) (h : ExamHall) : Nat :=
  let cap0 := if h.capacity = 0 then TARGET_CAPACITY else h.capacity
  match cfg.target_capacity with
  | none => cap0
  | some t => min cap0 t

/-- Selection of the two departments for a Phase-1 hall (dominant +
round-robin smaller department); returns the allowed list and the new
rotation index.  The `dd ≠ 0` conjunct mirrors Python's truthiness test
`if dominant_dept`. -/
def choose_pair (cfg : Cfg) (pools : Pools) (depts_with_students : List Nat)
    (dpi : Nat) : List Nat × Nat :=
  match cfg.dominant_dept with
  | some dd =>
    if dd ≠ 0 ∧ dd ∈ depts_with_students ∧ ¬ cfg.smaller_depts.isEmpty then
      let smaller_with := cfg.smaller_depts.filter
        (fun d => 0 < get_dept_remaining pools cfg.initKeys d)
      if smaller_with.isEmpty then (depts_with_students.take 2, dpi)
      else
        let idx := dpi % smaller_with.length
        ([dd, smaller_with.getD idx 0], dpi + 1)
    else (depts_with_students.take 2, dpi)
  | none => (depts_with_students.take 2, dpi)

/-- Phase 1: two-department paired halls, processed in sorted order;
returns the state and the halls not consumed (where Phase 2 starts). -/
def phase1 (cfg : Cfg) : List ExamHall → AllocState → AllocState × List ExamHall
  | [], st => (st, [])
  | h :: rest, st =>
    if count_remaining st.pools = 0 then (st, h :: rest)
    else
      let hid := h.hid
      let benches := hall_benches cfg h
      let target := hall_target cfg h
      let st1 := { st with matrices := alInsert st.matrices hid [],
                           seats := alInsert st.seats hid [] }
      let depts_with_students := cfg.all_depts.filter
        (fun d => 0 < get_dept_remaining st1.pools cfg.initKeys d)
      if depts_with_students.length < 2 then (st1, h :: rest)
      else
        let pr := choose_pair cfg st1.pools depts_with_students st1.dpi
        let st2 := { st1 with dpi := pr.2 }
        let fuel := count_remaining st2.pools + cfg.all_depts.length + target + 2
        let st3 := fill_hall_loop cfg hid benches target fuel pr.1 [] true st2
        phase1 cfg rest st3

/-- The Phase-2 inner `while` loop (no bench reordering, no target cap;
stops as soon as an iteration places nobody). -/
def phase2_loop (cfg : Cfg) (hid benches : Nat) :
    Nat → List Nat → List (Nat × Nat) → AllocState → AllocState
  | 0, _, _, st => st
  | fuel + 1, allowed, hsd, st =>
    if 0 < count_remaining st.pools then
      let keys := get_keys_for_depts st.pools cfg.initKeys allowed
      match try_place_keys hid benches cfg.spb hsd keys st with
      | (true, st1, hsd1) => phase2_loop cfg hid benches fuel allowed hsd1 st1
      | (false, st1, _) => st1
    else st

/-- Phase 2: overflow into the remaining halls, all departments allowed;
breaks out entirely when fewer than two departments remain. -/
def phase2 (cfg : Cfg) : List ExamHall → AllocState → AllocState
  | [], st => st
  | h :: rest, st =>
    if count_remaining st.pools = 0 then st
    else
      let hid := h.hid
      let benches := hall_benches cfg h
      let st1 :=
        if (alLookup st.matrices hid).isNone then
          { st with matrices := alInsert st.matrices hid [],
                    seats := alInsert st.seats hid [] }
        else st
      let hsd := ((alLookup st1.matrices hid).getD []).foldl
        (fun m p => alInsert m p.2.subj p.2.dept) []
      let depts_with_students := cfg.all_depts.filter
        (fun d => 0 < get_dept_remaining st1.pools cfg.initKeys d)
      if depts_with_students.length < 2 then st1
      else
        let fuel := count_remaining st1.pools + 1
        let st2 := phase2_loop cfg hid benches fuel depts_with_students hsd st1
        phase2 cfg rest st2

/-- `subject_names_map.get(subj_id, str(subj_id))` (an absent or empty
map yields `str(subj_id)` either way). -/
def subj_name_of (subject_names_map : List (Nat × String)) (subj_id : Nat) : String :=
  (alLookup subject_names_map subj_id).getD (toString subj_id)

/-- Build the pools and the department totals from the input map
(iterated in its own order, duplicate keys overwriting as dicts do). -/
def build_pools (subject_names_map : List (Nat × String))
    (input : List (Key × List Student)) : Pools × List (Nat × Nat) :=
  input.foldl
    (fun acc p =>
      let nm := subj_name_of subject_names_map p.1.2
      let tuples : List StuTuple :=
        p.2.map (fun st => ⟨st.sid, st.roll, st.sname, p.1.1, p.1.2, nm⟩)
      (alInsert acc.1 p.1 tuples,
       alInsert acc.2 p.1.1 ((alLookup acc.2 p.1.1).getD 0 + p.2.length)))
    ([], [])

/-- The value returned by `allocate_seats`:
`(allocations, halls_sorted, hall_matrix, hall_seats)`. -/
structure AllocResult where
  allocations : List Alloc
  halls_sorted : List ExamHall
  hall_matrix : List (Nat × Matrix)
  hall_seats : List (Nat × List (Nat × Nat))
deriving Repr

/-- Sort key of `halls_sorted`: `h.hall_number or str(h.id)`. -/
def hall_key (h : ExamHall) : String :=
  if h.hall_number = "" then toString h.hid else h.hall_number

/-- `allocate_seats`: strict two-dept pairing, saturation and overflow. -/
def allocate_seats (students_by_dept_subject : List (Key × List Student))
    (halls : List ExamHall) (capacity_per_bench benches_per_hall : Nat)
    (target_capacity : Option Nat) (subject_names_map : List (Nat × String)) :
    AllocResult :=
  let bp := build_pools subject_names_map students_by_dept_subject
  let pools := bp.1
  let totals := bp.2
  let initKeys := pools.map Prod.fst
  let all_depts := sortLe
    (fun a b => decide ((alLookup totals b).getD 0 ≤ (alLookup totals a).getD 0))
    (totals.map Prod.fst)
  let cfg : Cfg :=
    { spb := capacity_per_bench
      benches_per_hall := benches_per_hall
      target_capacity := target_capacity
      initKeys := initKeys
      all_depts := all_depts
      smaller_depts := all_depts.tail
      dominant_dept := all_depts.head? }
  let halls_sorted := sortLe (fun h1 h2 => strLe (hall_key h1) (hall_key h2)) halls
  let st0 : AllocState := ⟨pools, [], [], [], 0⟩
  let r1 := phase1 cfg halls_sorted st0
  let st2 := phase2 cfg r1.2 r1.1
  let st3 := halls_sorted.foldl
    (fun st h =>
      { st with
        seats := if (alLookup st.seats h.hid).isNone then alInsert st.seats h.hid []
                 else st.seats
        matrices := if (alLookup st.matrices h.hid).isNone then alInsert st.matrices h.hid []
                    else st.matrices })
    st2
  ⟨st3.allocs, halls_sorted, st3.matrices, st3.seats⟩

/-- Diagnostics of the allocation route `run_allocation` (flash
messages, modelled as constructors; `insufficientCapacity` carries the
`missing` count interpolated into the message). -/
inductive RunDiag where
  | noHalls
  | insufficientCapacity (missing : Nat)
  | noStudents
deriving Repr, DecidableEq

/-- `run_allocation` of `routes/allocation.py`, from the hall query on
(the schedule query and ownership filtering are upstream): the no-halls
check, then the capacity gate, then the pool check, then the engine. -/
def run_allocation (students_for_exam : List Student) (halls : List ExamHall)
    (students_by_dept_subj : List (Key × List Student))
    (subject_names_map : List (Nat × String)) (spb bph : Nat) :
    Option AllocResult × Option RunDiag :=
  if halls.isEmpty then (none, some .noHalls)
  else
    let total_students := students_for_exam.length
    let total_seats := (halls.map (fun h => h.capacity)).sum
    if total_seats < total_students then
      (none, some (.insufficientCapacity (total_students - total_seats)))
    else if students_by_dept_subj.isEmpty then (none, some .noStudents)
    else
      (some (allocate_seats students_by_dept_subj halls spb bph none subject_names_map),
       none)

/-- The bench adjacency of the specification for a 3-seat bench:
position 2 is adjacent to 1 and 3; positions 1 and 3 only to 2. -/
def adjacentPos (p q : Nat) : Prop :=
  (p = 1 ∧ q = 2) ∨ (p = 2 ∧ q = 1) ∨ (p = 2 ∧ q = 3) ∨ (p = 3 ∧ q = 2)

/-- A well-formed hall matrix: seat keys are distinct, and no two
entries on adjacent positions of one bench share a subject name. -/
def MatOK (mx : Matrix) : Prop :=
  (mx.map Prod.fst).Nodup ∧
  ∀ e1 ∈ mx, ∀ e2 ∈ mx, e1.1.1 = e2.1.1 → adjacentPos e1.1.2 e2.1.2 →
    e1.2.name ≠ e2.2.name

/-- All seat positions of a matrix lie in `1..3` (holds when
`capacity_per_bench = 3`). -/
def PosOK (mx : Matrix) : Prop := ∀ e ∈ mx, 1 ≤ e.1.2 ∧ e.1.2 ≤ 3

/-- Every allocation is backed by a matrix entry of its hall at its
seat, carrying its subject name. -/
def MatchesMatrix (st : AllocState) : Prop :=
  ∀ a ∈ st.allocs, ∃ e : MatEntry,
    ((a.bench, a.pos), e) ∈ (alLookup st.matrices a.hall).getD [] ∧
    e.name = a.stu.subjName

/-- The allocation-state invariant behind the anti-malpractice rule. -/
def StInv (st : AllocState) : Prop :=
  (∀ pr ∈ st.matrices, MatOK pr.2 ∧ PosOK pr.2) ∧ MatchesMatrix st

/-- The allocations made into one hall. -/
def hallAllocs (l : List Alloc) (hid : Nat) : List Alloc :=
  l.filter (fun a => a.hall = hid)

/-- Department-unique subject ids: no subject id is offered by two
different departments of the input map. -/
def deptUniqueKeys (input : List (Key × List Student)) : Prop :=
  ∀ p1 ∈ input, ∀ p2 ∈ input, p1.1.2 = p2.1.2 → p1.1.1 = p2.1.1

/-- Pool well-formedness: every queued tuple carries the department and
subject ids of its pool key (as `build_pools` constructs them). -/
def PoolsWF (pools : Pools) : Prop :=
  ∀ pr ∈ pools, ∀ stu ∈ pr.2, stu.dept = pr.1.1 ∧ stu.subj = pr.1.2

/-- Subject ids determine the department within a key list. -/
def KeyUnique (ks : List Key) : Prop :=
  ∀ k1 ∈ ks, ∀ k2 ∈ ks, k1.2 = k2.2 → k1.1 = k2.1

/-- The list contains assignments of two distinct departments. -/
def TwoDepts (l : List Alloc) : Prop :=
  ∃ a1 ∈ l, ∃ a2 ∈ l, a1.stu.dept ≠ a2.stu.dept

/-- A hall's allocation list satisfies the pairing rule: it is trivial
(at most one student) or spans two departments. -/
def HallDone (l : List Alloc) : Prop := l.length ≤ 1 ∨ TwoDepts l

/-- The reachable states of the Phase-1 hall loop: nothing placed in
this hall yet, exactly the opening student placed (at bench 1 seat 1, by
the first department of the round-robin order), or two departments
already seated. -/
def HallInv (cfg : Cfg) (hid d0 d1 : Nat) (allowed0 allowed : List Nat)
    (hsd : List (Nat × Nat)) (st : AllocState) : Prop :=
  (hallAllocs st.allocs hid = [] ∧ hsd = [] ∧
     (alLookup st.matrices hid).getD [] = [] ∧ allowed = allowed0 ∧
     0 < get_dept_remaining st.pools cfg.initKeys d0 ∧
     0 < get_dept_remaining st.pools cfg.initKeys d1)
  ∨ (∃ a0 e0, hallAllocs st.allocs hid = [a0] ∧
       (alLookup st.matrices hid).getD [] = [((1, 1), e0)] ∧
       hsd = [(e0.subj, e0.dept)] ∧ e0.dept = d0 ∧ a0.stu.dept = d0 ∧
       allowed = allowed0 ∧ (e0.dept, e0.subj) ∈ cfg.initKeys ∧
       0 < get_dept_remaining st.pools cfg.initKeys d1)
  ∨ TwoDepts (hallAllocs st.allocs hid)

end Allocation

/-! ### Lemmas about the timetable generator -/

namespace Timetable

theorem count_on_date_append (sched : List Slot) (s : Slot) (d : Nat) (n : String) :
    count_on_date (sched ++ [s]) d n =
      count_on_date sched d n + (if s.date = d ∧ s.name = n then 1 else 0) := by
  simp only [count_on_date, List.filter_append, List.length_append]
  congr 1
  by_cases h : s.date = d ∧ s.name = n
  · simp [h]
  · simp only [List.filter, decide_eq_true_eq]
    rw [if_neg h]
    simp [h]

theorem NameOK_append {sched : List Slot} {s : Slot} (h : NameOK sched)
    (hc : count_on_date sched s.date s.name < 2) : NameOK (sched ++ [s]) := by
  intro d n
  rw [count_on_date_append]
  by_cases hs : s.date = d ∧ s.name = n
  · rw [if_pos hs]
    rcases hs with ⟨h1, h2⟩
    subst h1; subst h2
    omega
  · rw [if_neg hs]
    simpa using h d n

theorem DeptOK_append {sched : List Slot} {s : Slot} (h : DeptOK sched)
    (hf : deptFree sched s.dept s.date) : DeptOK (sched ++ [s]) := by
  intro d
  rw [List.filter_append]
  refine List.pairwise_append.mpr ⟨h d, ?_, ?_⟩
  · by_cases hd : s.date = d <;> simp [List.filter_cons, hd]
  · intro a ha b hb
    rcases List.mem_filter.mp ha with ⟨ham, had⟩
    have had' : a.date = d := by simpa using had
    rcases List.mem_filter.mp hb with ⟨hbm, hbd⟩
    have hbs : b = s := by simpa using hbm
    subst hbs
    have hbd' : b.date = d := by simpa using hbd
    intro hcontra
    exact hf a ham hcontra (by rw [had', ← hbd'])

theorem DateLt_append {sched : List Slot} {s : Slot} {c : Nat} (h : DateLt sched c)
    (hs : s.date < c) : DateLt (sched ++ [s]) c := by
  intro x hx
  rcases List.mem_append.mp hx with h1 | h1
  · exact h x h1
  · simp at h1; subst h1; exact hs

theorem deptFree_append {sched : List Slot} {s : Slot} {dept : String} {g : Nat}
    (h : deptFree sched dept g) (hs : s.dept ≠ dept ∨ s.date ≠ g) :
    deptFree (sched ++ [s]) dept g := by
  intro x hx hd
  rcases List.mem_append.mp hx with h1 | h1
  · exact h x h1 hd
  · simp at h1; subst h1
    rcases hs with h2 | h2
    · exact absurd hd h2
    · exact fun he => h2 he

end Timetable

namespace Timetable

theorem find_gaps_mem {sched : List Slot} {dept : String} {c g : Nat}
    (hg : g ∈ find_gaps_for_department sched dept c) :
    g < c ∧ deptFree sched dept g := by
  unfold find_gaps_for_department at hg
  cases hmatch : (sched.filter (fun s => s.dept = dept)).map Slot.date with
  | nil => rw [hmatch] at hg; simp at hg
  | cons d ds =>
    rw [hmatch] at hg
    rcases List.mem_filter.mp hg with ⟨hr, hnot⟩
    have hr' := List.mem_range'_1.mp hr
    refine ⟨by omega, ?_⟩
    intro s hs hd hdate
    have hmem : g ∈ (sched.filter (fun x => x.dept = dept)).map Slot.date := by
      refine List.mem_map.mpr ⟨s, List.mem_filter.mpr ⟨hs, by simpa using hd⟩, hdate⟩
    rw [hmatch] at hmem
    simp only [decide_eq_true_eq] at hnot
    exact hnot hmem

theorem find_gaps_nodup (sched : List Slot) (dept : String) (c : Nat) :
    (find_gaps_for_department sched dept c).Nodup := by
  unfold find_gaps_for_department
  cases (sched.filter (fun s => s.dept = dept)).map Slot.date with
  | nil => simp
  | cons d ds => exact (List.nodup_range' _ _).filter _

theorem shuffle_pick_lt {unplaced : List Item} {m : NameMap} {dept code alt : String}
    {counts : String → Nat} {excl : List String}
    (h : shuffle_and_pick_subject unplaced m dept code counts excl = some alt) :
    counts (get_subject_name m alt) < 2 := by
  unfold shuffle_and_pick_subject at h
  have hp := List.find?_some h
  simp only [Bool.and_eq_true, decide_eq_true_eq] at hp
  exact hp.2

/-- Each gap step either leaves the accumulator unchanged or appends one
slot of this department on the gap date whose subject name still had
fewer than two slots there. -/
theorem backfill_gap_step_cases (m : NameMap) (up : List Item) (dept : String)
    (subs : List String) (acc : List Slot × List String) (g : Nat) :
    backfill_gap_step m up dept subs acc g = acc ∨
    ∃ code nm, count_on_date acc.1 g nm < 2 ∧
      (backfill_gap_step m up dept subs acc g).1 = acc.1 ++ [⟨g, dept, code, nm⟩] := by
  simp only [backfill_gap_step]
  split
  · exact Or.inl rfl
  · split
    · case _ s hfind =>
      right
      refine ⟨s, get_subject_name m s, ?_, rfl⟩
      have hp := List.find?_some hfind
      unfold can_fit_subject_in_gap at hp
      exact of_decide_eq_true hp
    · split
      · exact Or.inl rfl
      · split
        · exact Or.inl rfl
        · case _ alternate halt =>
          split
          · case _ hfit =>
            right
            refine ⟨alternate, get_subject_name m alternate, ?_, rfl⟩
            unfold can_fit_subject_in_gap at hfit
            exact of_decide_eq_true hfit
          · exact Or.inl rfl

/-- Folding the gap steps over a duplicate-free list of gap dates that
are department-free and before `c` preserves the three schedule
invariants. -/
theorem backfill_fold_inv (m : NameMap) (up : List Item) (dept : String)
    (subs : List String) (c : Nat) :
    ∀ (gaps : List Nat) (acc : List Slot × List String),
      NameOK acc.1 → DeptOK acc.1 → DateLt acc.1 c → gaps.Nodup →
      (∀ g ∈ gaps, g < c ∧ deptFree acc.1 dept g) →
      NameOK (gaps.foldl (backfill_gap_step m up dept subs) acc).1 ∧
      DeptOK (gaps.foldl (backfill_gap_step m up dept subs) acc).1 ∧
      DateLt (gaps.foldl (backfill_gap_step m up dept subs) acc).1 c
  | [], acc, hN, hD, hLt, _, _ => ⟨hN, hD, hLt⟩
  | g :: gaps, acc, hN, hD, hLt, hnd, hfree => by
    simp only [List.foldl_cons]
    rcases backfill_gap_step_cases m up dept subs acc g with hcase | ⟨code, nm, hcnt, hsched⟩
    · rw [hcase]
      exact backfill_fold_inv m up dept subs c gaps acc hN hD hLt hnd.of_cons
        (fun g2 hg2 => hfree g2 (List.mem_cons_of_mem _ hg2))
    · have hfree_g := hfree g (List.mem_cons_self _ _)
      refine backfill_fold_inv m up dept subs c gaps _ ?_ ?_ ?_ hnd.of_cons ?_
      · show NameOK (backfill_gap_step m up dept subs acc g).1
        rw [hsched]; exact NameOK_append hN hcnt
      · show DeptOK (backfill_gap_step m up dept subs acc g).1
        rw [hsched]; exact DeptOK_append hD hfree_g.2
      · show DateLt (backfill_gap_step m up dept subs acc g).1 c
        rw [hsched]; exact DateLt_append hLt hfree_g.1
      · intro g2 hg2
        refine ⟨(hfree g2 (List.mem_cons_of_mem _ hg2)).1, ?_⟩
        show deptFree (backfill_gap_step m up dept subs acc g).1 dept g2
        rw [hsched]
        refine deptFree_append (hfree g2 (List.mem_cons_of_mem _ hg2)).2 (Or.inr ?_)
        simp only [ne_eq]
        intro hcontra
        exact (List.nodup_cons.mp hnd).1 (hcontra ▸ hg2)

/-- `backfill_gaps` preserves the three schedule invariants. -/
theorem backfill_gaps_inv (m : NameMap) (st : TState) (c : Nat)
    (hN : NameOK st.schedule) (hD : DeptOK st.schedule) (hLt : DateLt st.schedule c) :
    NameOK (backfill_gaps m st c).schedule ∧ DeptOK (backfill_gaps m st c).schedule ∧
    DateLt (backfill_gaps m st c).schedule c := by
  have main : ∀ (depts : List String) (acc : List Slot × List String),
      NameOK acc.1 → DeptOK acc.1 → DateLt acc.1 c →
      NameOK (depts.foldl (fun a d =>
          (find_gaps_for_department a.1 d c).foldl
            (backfill_gap_step m st.unplaced d
              (get_remaining_subjects_for_dept st.unplaced d)) a)
        acc).1 ∧
      DeptOK (depts.foldl (fun a d =>
          (find_gaps_for_department a.1 d c).foldl
            (backfill_gap_step m st.unplaced d
              (get_remaining_subjects_for_dept st.unplaced d)) a)
        acc).1 ∧
      DateLt (depts.foldl (fun a d =>
          (find_gaps_for_department a.1 d c).foldl
            (backfill_gap_step m st.unplaced d
              (get_remaining_subjects_for_dept st.unplaced d)) a)
        acc).1 c := by
    intro depts
    induction depts with
    | nil => intro acc hN hD hLt; exact ⟨hN, hD, hLt⟩
    | cons d depts ih =>
      intro acc hN hD hLt
      simp only [List.foldl_cons]
      have step := backfill_fold_inv m st.unplaced d
        (get_remaining_subjects_for_dept st.unplaced d) c
        (find_gaps_for_department acc.1 d c) acc hN hD hLt
        (find_gaps_nodup acc.1 d c)
        (fun g hg => find_gaps_mem hg)
      exact ih _ step.1 step.2.1 step.2.2
  exact main _ _ hN hD hLt

end Timetable

namespace Timetable

/-- Each main-loop item either leaves schedule, counters and assigned
departments unchanged, or places one slot for a not-yet-assigned
department whose chosen subject name is below the per-date limit. -/
theorem place_one_cases (m : NameMap) (up : List Item) (c : Nat) (acc : DayAcc)
    (item : Item) :
    ((place_one m up c acc item).schedule = acc.schedule ∧
     (place_one m up c acc item).counts = acc.counts ∧
     (place_one m up c acc item).dept_assigned = acc.dept_assigned) ∨
    ∃ code nm, acc.counts nm < 2 ∧ item.1 ∉ acc.dept_assigned ∧
      (place_one m up c acc item).schedule = acc.schedule ++ [⟨c, item.1, code, nm⟩] ∧
      (place_one m up c acc item).counts =
        (fun x => if x = nm then acc.counts x + 1 else acc.counts x) ∧
      (place_one m up c acc item).dept_assigned = item.1 :: acc.dept_assigned := by
  simp only [place_one]
  split
  · exact Or.inl ⟨rfl, rfl, rfl⟩
  · case _ hnotin =>
    split
    · case _ heq => exact Or.inl ⟨rfl, rfl, rfl⟩
    · case _ code nm heq =>
      right
      refine ⟨code, nm, ?_, hnotin, rfl, rfl, rfl⟩
      split at heq
      · case _ hge =>
        cases halt : shuffle_and_pick_subject up m item.1 item.2 acc.counts
            acc.scheduled_codes with
        | none => rw [halt] at heq; exact absurd heq (by simp)
        | some alt =>
          rw [halt] at heq
          simp only [Option.some.injEq, Prod.mk.injEq] at heq
          rw [← heq.2]
          exact shuffle_pick_lt halt
      · case _ hlt =>
        simp only [Option.some.injEq, Prod.mk.injEq] at heq
        rw [← heq.2]
        omega

/-- The per-date placement fold preserves the schedule invariants, given
a synchronised counter and the assigned-department bookkeeping. -/
theorem place_fold_inv (m : NameMap) (up : List Item) (c : Nat) :
    ∀ (itemsLeft : List Item) (acc : DayAcc),
      NameOK acc.schedule → DeptOK acc.schedule → DateLt acc.schedule (c + 1) →
      (∀ n, acc.counts n = count_on_date acc.schedule c n) →
      (∀ s ∈ acc.schedule, s.date = c → s.dept ∈ acc.dept_assigned) →
      NameOK (itemsLeft.foldl (place_one m up c) acc).schedule ∧
      DeptOK (itemsLeft.foldl (place_one m up c) acc).schedule ∧
      DateLt (itemsLeft.foldl (place_one m up c) acc).schedule (c + 1)
  | [], acc, hN, hD, hLt, _, _ => ⟨hN, hD, hLt⟩
  | item :: rest, acc, hN, hD, hLt, hsync, hmem => by
    simp only [List.foldl_cons]
    rcases place_one_cases m up c acc item with ⟨h1, h2, h3⟩ |
      ⟨code, nm, hlt2, hnotin, h1, h2, h3⟩
    · refine place_fold_inv m up c rest _ ?_ ?_ ?_ ?_ ?_
      · rw [h1]; exact hN
      · rw [h1]; exact hD
      · rw [h1]; exact hLt
      · intro n; rw [h2, h1]; exact hsync n
      · rw [h1, h3]; exact hmem
    · have hcount : count_on_date acc.schedule c nm < 2 := by rw [← hsync nm]; exact hlt2
      have hfreeD : deptFree acc.schedule item.1 c := by
        intro s hs hd hdate
        exact hnotin (hd ▸ hmem s hs hdate)
      refine place_fold_inv m up c rest _ ?_ ?_ ?_ ?_ ?_
      · rw [h1]; exact NameOK_append hN hcount
      · rw [h1]; exact DeptOK_append hD hfreeD
      · rw [h1]; exact DateLt_append hLt (Nat.lt_succ_self c)
      · intro n
        rw [h2, h1, count_on_date_append]
        change (if n = nm then acc.counts n + 1 else acc.counts n) = _
        by_cases hn : n = nm
        · rw [if_pos hn, hsync n, hn]
          have hcond : ((⟨c, item.1, code, nm⟩ : Slot).date = c ∧
              (⟨c, item.1, code, nm⟩ : Slot).name = nm) := ⟨rfl, rfl⟩
          rw [if_pos hcond]
        · rw [if_neg hn, hsync n]
          have hcond : ¬((⟨c, item.1, code, nm⟩ : Slot).date = c ∧
              (⟨c, item.1, code, nm⟩ : Slot).name = n) := by
            intro hcontra
            exact hn hcontra.2.symm
          rw [if_neg hcond]
          omega
      · intro s hs hdate
        rw [h3]
        rw [h1] at hs
        rcases List.mem_append.mp hs with hold | hnew
        · exact List.mem_cons_of_mem _ (hmem s hold hdate)
        · simp at hnew; subst hnew; exact List.mem_cons_self _ _

theorem count_on_date_zero {sched : List Slot} {c : Nat} (hLt : DateLt sched c) :
    ∀ n, count_on_date sched c n = 0 := by
  intro n
  unfold count_on_date
  rw [List.length_eq_zero, List.filter_eq_nil_iff]
  intro s hs
  simp only [decide_eq_true_eq, not_and]
  intro hdate
  exact absurd (hLt s hs) (by rw [hdate]; exact lt_irrefl c)

/-- `place_day` preserves the invariants and keeps all dates below the
next day. -/
theorem place_day_inv (m : NameMap) (st : TState) (c : Nat)
    (hN : NameOK st.schedule) (hD : DeptOK st.schedule) (hLt : DateLt st.schedule c) :
    NameOK (place_day m st c).schedule ∧ DeptOK (place_day m st c).schedule ∧
    DateLt (place_day m st c).schedule (c + 1) := by
  unfold place_day
  exact place_fold_inv m st.unplaced c st.unplaced ⟨[], fun _ => 0, [], [], st.schedule⟩
    hN hD (fun s hs => Nat.lt_succ_of_lt (hLt s hs))
    (fun n => (count_on_date_zero hLt n).symm)
    (fun s hs hdate => absurd (hLt s hs) (by rw [hdate]; exact lt_irrefl c))

theorem DateLt_mono {sched : List Slot} {c : Nat} (h : DateLt sched c) :
    DateLt sched (c + 1) :=
  fun s hs => Nat.lt_succ_of_lt (h s hs)

/-- The whole day loop preserves the two schedule invariants. -/
theorem run_days_inv (m : NameMap) (excl : List Nat) :
    ∀ (fuel c : Nat) (st : TState), NameOK st.schedule → DeptOK st.schedule →
      DateLt st.schedule c →
      NameOK (run_days m excl fuel c st).schedule ∧
      DeptOK (run_days m excl fuel c st).schedule
  | 0, _, st, hN, hD, _ => ⟨hN, hD⟩
  | fuel + 1, c, st, hN, hD, hLt => by
    simp only [run_days]
    split
    · exact ⟨hN, hD⟩
    · split
      · exact run_days_inv m excl fuel (c + 1) st hN hD (DateLt_mono hLt)
      · have hb := backfill_gaps_inv m st c hN hD hLt
        split
        · exact run_days_inv m excl fuel (c + 1) (backfill_gaps m st c) hb.1 hb.2.1
            (DateLt_mono hb.2.2)
        · have hp := place_day_inv m (backfill_gaps m st c) c hb.1 hb.2.1 hb.2.2
          exact run_days_inv m excl fuel (c + 1) (place_day m (backfill_gaps m st c) c)
            hp.1 hp.2.1 hp.2.2

end Timetable

namespace Timetable

/-- C1: for every call to `generate_timetable` and every date of the
returned schedule, at most 2 slots on that date share a subject name
(counting slots from the main day loop and from gap backfilling). -/
theorem generate_timetable_subject_name_limit (rows : List Row) (start : Nat)
    (excl : List Nat) (mopt : Option NameMap) (d : Nat) (n : String) :
    count_on_date (generate_timetable rows start excl mopt).1 d n ≤ 2 := by
  simp only [generate_timetable]
  split
  · simp [count_on_date]
  · exact (run_days_inv (build_names_map rows mopt) excl
      (max_per_dept (toItems rows) * 2 + 30) start ⟨[], toItems rows⟩
      (fun d n => by simp [count_on_date])
      (fun d => by simp)
      (fun s hs => absurd hs (List.not_mem_nil s))).1 d n

/-- C2: for every call to `generate_timetable` and every date, the
department codes of the slots on that date are pairwise distinct,
whether the slots come from the main day loop or from gap backfilling. -/
theorem generate_timetable_dept_distinct (rows : List Row) (start : Nat)
    (excl : List Nat) (mopt : Option NameMap) (d : Nat) :
    ((generate_timetable rows start excl mopt).1.filter
      (fun s => s.date = d)).Pairwise (fun s1 s2 => s1.dept ≠ s2.dept) := by
  simp only [generate_timetable]
  split
  · simp
  · exact (run_days_inv (build_names_map rows mopt) excl
      (max_per_dept (toItems rows) * 2 + 30) start ⟨[], toItems rows⟩
      (fun d n => by simp [count_on_date])
      (fun d => by simp)
      (fun s hs => absurd hs (List.not_mem_nil s))).2 d

/-- C4 (code evaluated at the failing input): departments A, B, C all
offer subject name Math, C also offers Phys; with start day 0 and day 1
excluded, gap backfilling schedules the slot (1, C, MC, Math) on the
excluded date 1. -/
theorem generate_timetable_places_on_excluded_date :
    (Slot.mk 1 "C" "MC" "Math") ∈
      (generate_timetable
        [⟨"A", "MA", "Math"⟩, ⟨"B", "MB", "Math"⟩,
         ⟨"C", "PC", "Phys"⟩, ⟨"C", "MC", "Math"⟩] 0 [1] none).1 ∧
    (1 : Nat) ∈ [1] := by decide

/-- C5 (code evaluated at the failing input): on the repository's own
test scenario (three departments D1, D2, D3, each offering Math and
Science), the recursive shuffle schedules offering (D3, S6) twice and
offering (D3, S5) never. -/
theorem generate_timetable_duplicates_offering :
    ((generate_timetable
        [⟨"D1", "S1", "Math"⟩, ⟨"D1", "S2", "Science"⟩,
         ⟨"D2", "S3", "Math"⟩, ⟨"D2", "S4", "Science"⟩,
         ⟨"D3", "S5", "Math"⟩, ⟨"D3", "S6", "Science"⟩] 0 [] none).1.filter
      (fun s => s.dept = "D3" ∧ s.code = "S6")).length = 2 ∧
    ((generate_timetable
        [⟨"D1", "S1", "Math"⟩, ⟨"D1", "S2", "Science"⟩,
         ⟨"D2", "S3", "Math"⟩, ⟨"D2", "S4", "Science"⟩,
         ⟨"D3", "S5", "Math"⟩, ⟨"D3", "S6", "Science"⟩] 0 [] none).1.filter
      (fun s => s.dept = "D3" ∧ s.code = "S5")).length = 0 := by decide

/-- C7 (code evaluated at the failing input): one department with two
offerings, days 1..33 excluded; the day budget (2*2+30 = 34 tried days)
is exhausted and `generate_timetable` returns a partial one-slot
schedule (neither empty nor complete), with no diagnostic channel. -/
theorem generate_timetable_returns_partial_schedule :
    (toItems [⟨"D", "S1", "Alg"⟩, ⟨"D", "S2", "Calc"⟩]).length = 2 ∧
    (generate_timetable [⟨"D", "S1", "Alg"⟩, ⟨"D", "S2", "Calc"⟩]
      0 (List.range' 1 33) none).1.length = 1 := by decide

/-- C9 (counterexample): reversing the three-row offering list changes
the schedule even after sorting by date and department. -/
theorem generate_timetable_not_permutation_invariant :
    ([⟨"C", "MC", "Math"⟩, ⟨"B", "MB", "Math"⟩, ⟨"A", "MA", "Math"⟩] : List Row) =
      ([⟨"A", "MA", "Math"⟩, ⟨"B", "MB", "Math"⟩, ⟨"C", "MC", "Math"⟩] : List Row).reverse ∧
    sortSchedule (generate_timetable
        [⟨"A", "MA", "Math"⟩, ⟨"B", "MB", "Math"⟩, ⟨"C", "MC", "Math"⟩] 0 [] none).1 ≠
      sortSchedule (generate_timetable
        [⟨"C", "MC", "Math"⟩, ⟨"B", "MB", "Math"⟩, ⟨"A", "MA", "Math"⟩] 0 [] none).1 := by
  decide

/-- C9 (amended): the schedule is a deterministic function of the
ordered offering items and the subject-name resolution derived from the
rows: two calls whose rows induce the same item sequence and the same
names map (with equal start date, excluded dates and provided map)
return identical results. -/
theorem generate_timetable_determined_by_items (rows1 rows2 : List Row)
    (start : Nat) (excl : List Nat) (mopt : Option NameMap)
    (h1 : toItems rows1 = toItems rows2)
    (h2 : names_from_rows rows1 = names_from_rows rows2) :
    generate_timetable rows1 start excl mopt =
      generate_timetable rows2 start excl mopt := by
  have hb : build_names_map rows1 mopt = build_names_map rows2 mopt := by
    cases mopt <;> simp [build_names_map, h2]
  simp only [generate_timetable]
  rw [hb, h1]

/-- Witness for the amended C9 theorem: two different row lists (one
holding an extra row with empty codes) with equal items and name maps
produce the same schedule. -/
theorem generate_timetable_determined_by_items_witness :
    (([⟨"", "", "Z"⟩, ⟨"A", "MA", "Math"⟩] : List Row) ≠ [⟨"A", "MA", "Math"⟩]) ∧
    generate_timetable [⟨"A", "MA", "Math"⟩] 0 [] none =
      generate_timetable [⟨"", "", "Z"⟩, ⟨"A", "MA", "Math"⟩] 0 [] none :=
  ⟨by decide,
   generate_timetable_determined_by_items _ _ 0 [] none (by decide) (by decide)⟩

end Timetable

/-! ### Lemmas about the seat-allocation engine -/

theorem mem_alInsert [DecidableEq κ] {l : List (κ × β)} {k : κ} {v : β} {pr : κ × β}
    (h : pr ∈ alInsert l k v) : pr = (k, v) ∨ pr ∈ l := by
  induction l with
  | nil => simpa [alInsert] using h
  | cons hd tl ih =>
    obtain ⟨k0, v0⟩ := hd
    simp only [alInsert] at h
    by_cases hk : k0 = k
    · rw [if_pos hk] at h
      rcases List.mem_cons.mp h with h | h
      · exact Or.inl h
      · exact Or.inr (List.mem_cons_of_mem _ h)
    · rw [if_neg hk] at h
      rcases List.mem_cons.mp h with h | h
      · exact Or.inr (h ▸ List.mem_cons_self _ _)
      · rcases ih h with h2 | h2
        · exact Or.inl h2
        · exact Or.inr (List.mem_cons_of_mem _ h2)

theorem alLookup_alInsert_self [DecidableEq κ] (l : List (κ × β)) (k : κ) (v : β) :
    alLookup (alInsert l k v) k = some v := by
  induction l with
  | nil => simp [alInsert, alLookup]
  | cons hd tl ih =>
    obtain ⟨k0, v0⟩ := hd
    simp only [alInsert]
    by_cases hk : k0 = k
    · rw [if_pos hk]
      simp [alLookup]
    · rw [if_neg hk]
      simp only [alLookup]
      rw [if_neg hk]
      exact ih

theorem alLookup_alInsert_ne [DecidableEq κ] (l : List (κ × β)) {k k' : κ} (v : β)
    (h : k ≠ k') : alLookup (alInsert l k v) k' = alLookup l k' := by
  induction l with
  | nil => simp [alInsert, alLookup, h]
  | cons hd tl ih =>
    obtain ⟨k0, v0⟩ := hd
    simp only [alInsert]
    by_cases hk : k0 = k
    · rw [if_pos hk]
      simp only [alLookup]
      rw [if_neg h, if_neg (fun hc => h (hk.symm.trans hc))]
    · rw [if_neg hk]
      simp only [alLookup]
      by_cases hk' : k0 = k'
      · rw [if_pos hk', if_pos hk']
      · rw [if_neg hk', if_neg hk']
        exact ih

theorem alLookup_mem [DecidableEq κ] {l : List (κ × β)} {k : κ} {v : β}
    (h : alLookup l k = some v) : (k, v) ∈ l := by
  induction l with
  | nil => simp [alLookup] at h
  | cons hd tl ih =>
    obtain ⟨k0, v0⟩ := hd
    simp only [alLookup] at h
    by_cases hk : k0 = k
    · rw [if_pos hk] at h
      obtain rfl := hk
      obtain rfl : v0 = v := by simpa using h
      exact List.mem_cons_self _ _
    · rw [if_neg hk] at h
      exact List.mem_cons_of_mem _ (ih h)

theorem alLookup_none_not_mem [DecidableEq κ] {l : List (κ × β)} {k : κ}
    (h : alLookup l k = none) : k ∉ l.map Prod.fst := by
  induction l with
  | nil => simp
  | cons hd tl ih =>
    obtain ⟨k0, v0⟩ := hd
    simp only [alLookup] at h
    by_cases hk : k0 = k
    · rw [if_pos hk] at h
      exact absurd h (by simp)
    · rw [if_neg hk] at h
      simp only [List.map_cons, List.mem_cons]
      rintro (h1 | h1)
      · exact hk h1.symm
      · exact ih h h1

theorem alLookup_of_mem_nodup [DecidableEq κ] {l : List (κ × β)} {pr : κ × β}
    (hnd : (l.map Prod.fst).Nodup) (h : pr ∈ l) : alLookup l pr.1 = some pr.2 := by
  induction l with
  | nil => simp at h
  | cons hd tl ih =>
    obtain ⟨k0, v0⟩ := hd
    rcases List.mem_cons.mp h with h1 | h1
    · subst h1
      simp [alLookup]
    · have hne : ¬ k0 = pr.1 := by
        intro hcontra
        have hm : pr.1 ∈ tl.map Prod.fst := List.mem_map.mpr ⟨pr, h1, rfl⟩
        exact (List.nodup_cons.mp (by simpa using hnd)).1 (hcontra ▸ hm)
      simp only [alLookup]
      rw [if_neg hne]
      exact ih (List.nodup_cons.mp (by simpa using hnd)).2 h1

namespace Allocation

theorem adjacentPos_symm {p q : Nat} (h : adjacentPos p q) : adjacentPos q p := by
  rcases h with ⟨h1, h2⟩ | ⟨h1, h2⟩ | ⟨h1, h2⟩ | ⟨h1, h2⟩ <;> subst h1 <;> subst h2 <;>
    simp [adjacentPos]

theorem adjacentPos_ne {p q : Nat} (h : adjacentPos p q) : p ≠ q := by
  rcases h with ⟨h1, h2⟩ | ⟨h1, h2⟩ | ⟨h1, h2⟩ | ⟨h1, h2⟩ <;> subst h1 <;> subst h2 <;> omega

/-- The neighbour list checked by the source covers exactly the
specification's adjacency for positions 1..3. -/
theorem adjacentPos_cases {p q : Nat} (h : adjacentPos p q) :
    (p = 1 ∧ q = 2) ∨ (p = 2 ∧ (q = 1 ∨ q = 3)) ∨ (p = 3 ∧ q = 2) := by
  rcases h with ⟨h1, h2⟩ | ⟨h1, h2⟩ | ⟨h1, h2⟩ | ⟨h1, h2⟩ <;> subst h1 <;> subst h2 <;> simp

theorem find_valid_seat_spec {mx : Matrix} {n : String} {benches spb : Nat}
    {q : Nat × Nat} (h : find_valid_seat mx n benches spb = some q) :
    alLookup mx q = none ∧ get_adjacent_same_subject_name mx n q.1 q.2 = false ∧
    1 ≤ q.2 ∧ q.2 ≤ spb := by
  unfold find_valid_seat at h
  have hmem := List.mem_of_find?_eq_some h
  have hp := List.find?_some h
  simp only [Bool.and_eq_true, Bool.not_eq_true', Option.isNone_iff_eq_none] at hp
  refine ⟨hp.1, hp.2, ?_, ?_⟩ <;>
  · unfold seatList at hmem
    rcases List.mem_flatMap.mp hmem with ⟨b, _, hq⟩
    rcases List.mem_map.mp hq with ⟨p, hpmem, hpq⟩
    have hrange := List.mem_range'_1.mp hpmem
    subst hpq
    simp only
    omega

theorem get_adjacent_false_lookup {mx : Matrix} {n : String} {b p : Nat}
    (h : get_adjacent_same_subject_name mx n b p = false)
    {p' : Nat} {e : MatEntry} (hl : alLookup mx (b, p') = some e)
    (hadj : adjacentPos p p') : e.name ≠ n := by
  unfold get_adjacent_same_subject_name at h
  rw [List.any_eq_false] at h
  rcases adjacentPos_cases hadj with ⟨h1, h2⟩ | ⟨h1, h2⟩ | ⟨h1, h2⟩
  · subst h1; subst h2
    have := h (b, 2) (by simp)
    rw [hl] at this
    simpa using this
  · subst h1
    rcases h2 with h2 | h2 <;> subst h2
    · have := h (b, 1) (by simp)
      rw [hl] at this
      simpa using this
    · have := h (b, 3) (by simp)
      rw [hl] at this
      simpa using this
  · subst h1; subst h2
    have := h (b, 2) (by simp)
    rw [hl] at this
    simpa using this

theorem MatOK_nil : MatOK [] := ⟨List.nodup_nil, by simp⟩

theorem PosOK_nil : PosOK [] := by intro e he; simp at he

/-- Appending a seat approved by `find_valid_seat` (with 3 positions per
bench) preserves the matrix invariants. -/
theorem MatOK_append {mx : Matrix} {q : Nat × Nat} {e : MatEntry}
    (hm : MatOK mx) (hpos : PosOK mx) (hfresh : alLookup mx q = none)
    (hadj : get_adjacent_same_subject_name mx e.name q.1 q.2 = false)
    (hq : 1 ≤ q.2 ∧ q.2 ≤ 3) :
    MatOK (mx ++ [(q, e)]) ∧ PosOK (mx ++ [(q, e)]) := by
  obtain ⟨hnd, hpair⟩ := hm
  refine ⟨⟨?_, ?_⟩, ?_⟩
  · rw [List.map_append]
    simp only [List.map_cons, List.map_nil]
    rw [List.nodup_append]
    refine ⟨hnd, List.nodup_singleton _, ?_⟩
    intro a ha hb
    simp only [List.mem_singleton] at hb
    subst hb
    exact alLookup_none_not_mem hfresh ha
  · intro e1 he1 e2 he2 hbench hadj12
    rcases List.mem_append.mp he1 with h1 | h1 <;>
      rcases List.mem_append.mp he2 with h2 | h2
    · exact hpair e1 h1 e2 h2 hbench hadj12
    · simp only [List.mem_singleton] at h2
      subst h2
      have hl : alLookup mx (e1.1.1, e1.1.2) = some e1.2 := by
        have := alLookup_of_mem_nodup hnd h1
        simpa using this
      have hl' : alLookup mx (q.1, e1.1.2) = some e1.2 := by
        simp only at hbench
        rw [← hbench]
        exact hl
      have := get_adjacent_false_lookup hadj hl' (adjacentPos_symm hadj12)
      simpa using this
    · simp only [List.mem_singleton] at h1
      subst h1
      have hl : alLookup mx (e2.1.1, e2.1.2) = some e2.2 := by
        have := alLookup_of_mem_nodup hnd h2
        simpa using this
      have hl' : alLookup mx (q.1, e2.1.2) = some e2.2 := by
        simp only at hbench
        rw [hbench]
        exact hl
      have := get_adjacent_false_lookup hadj hl' hadj12
      simp only
      exact fun hc => this hc.symm
    · simp only [List.mem_singleton] at h1 h2
      subst h1; subst h2
      exact absurd rfl (adjacentPos_ne hadj12)
  · intro e1 he1
    rcases List.mem_append.mp he1 with h1 | h1
    · exact hpos e1 h1
    · simp only [List.mem_singleton] at h1
      subst h1
      exact hq

end Allocation

namespace Allocation

theorem matrixOf_ok {st : AllocState} (hinv : StInv st) (hid : Nat) :
    MatOK ((alLookup st.matrices hid).getD []) ∧
    PosOK ((alLookup st.matrices hid).getD []) := by
  cases hmx : alLookup st.matrices hid with
  | none => exact ⟨MatOK_nil, PosOK_nil⟩
  | some mx => simpa using hinv.1 (hid, mx) (alLookup_mem hmx)

/-- Seating one student at a seat approved by `find_valid_seat`
preserves the allocation-state invariant. -/
theorem StInv_place {st : AllocState} (hinv : StInv st) {hid : Nat} {q : Nat × Nat}
    {stu : StuTuple} {k : Key} {pools' : Pools}
    (hfresh : alLookup ((alLookup st.matrices hid).getD []) q = none)
    (hadj : get_adjacent_same_subject_name ((alLookup st.matrices hid).getD [])
      stu.subjName q.1 q.2 = false)
    (hq : 1 ≤ q.2 ∧ q.2 ≤ 3) :
    StInv { st with
      pools := pools'
      allocs := st.allocs ++ [⟨hid, q.1, q.2, stu⟩]
      matrices := alInsert st.matrices hid
        (((alLookup st.matrices hid).getD []) ++ [(q, ⟨k.1, k.2, stu.subjName⟩)])
      seats := alInsert st.seats hid (((alLookup st.seats hid).getD []) ++ [q]) } := by
  have hmx := matrixOf_ok hinv hid
  have happ := MatOK_append (e := ⟨k.1, k.2, stu.subjName⟩) hmx.1 hmx.2 hfresh hadj hq
  constructor
  · intro pr hpr
    rcases mem_alInsert hpr with h1 | h1
    · rw [h1]
      exact happ
    · exact hinv.1 pr h1
  · intro a ha
    simp only [List.mem_append] at ha
    rcases ha with h1 | h1
    · obtain ⟨e, hmem, hname⟩ := hinv.2 a h1
      by_cases hh : a.hall = hid
      · refine ⟨e, ?_, hname⟩
        simp only [hh, alLookup_alInsert_self, Option.getD_some]
        exact List.mem_append_left _ (hh ▸ hmem)
      · refine ⟨e, ?_, hname⟩
        rw [alLookup_alInsert_ne _ _ (fun hc => hh hc.symm)]
        exact hmem
    · simp only [List.mem_singleton] at h1
      subst h1
      refine ⟨⟨k.1, k.2, stu.subjName⟩, ?_, rfl⟩
      simp only [alLookup_alInsert_self, Option.getD_some]
      exact List.mem_append_right _ (by simp)

theorem try_place_keys_inv (hid benches : Nat) :
    ∀ (hsd : List (Nat × Nat)) (keys : List Key) (st : AllocState), StInv st →
      StInv (try_place_keys hid benches 3 hsd keys st).2.1 ∧
      ∃ tail, (try_place_keys hid benches 3 hsd keys st).2.1.allocs =
        st.allocs ++ tail ∧ ∀ a ∈ tail, a.hall = hid
  | _, [], st, hinv => ⟨hinv, [], by simp [try_place_keys], by simp⟩
  | hsd, k :: rest, st, hinv => by
    simp only [try_place_keys]
    split
    · exact try_place_keys_inv hid benches hsd rest st hinv
    · split
      · exact try_place_keys_inv hid benches hsd rest st hinv
      · case _ stu pools' heq =>
        split
        · case _ q hseat =>
          have hspec := find_valid_seat_spec hseat
          refine ⟨StInv_place hinv hspec.1 hspec.2.1 ⟨hspec.2.2.1, hspec.2.2.2⟩,
            [⟨hid, q.1, q.2, stu⟩], rfl, ?_⟩
          intro a ha
          simp only [List.mem_singleton] at ha
          subst ha
          rfl
        · exact try_place_keys_inv hid benches hsd rest st hinv

theorem try_place_keys_inv' {hid benches : Nat} {hsd : List (Nat × Nat)}
    {keys : List Key} {st : AllocState} {b : Bool} {st1 : AllocState}
    {hsd1 : List (Nat × Nat)}
    (heq : try_place_keys hid benches 3 hsd keys st = (b, st1, hsd1))
    (hinv : StInv st) :
    StInv st1 ∧ ∃ tail, st1.allocs = st.allocs ++ tail ∧ ∀ a ∈ tail, a.hall = hid := by
  have h := try_place_keys_inv hid benches hsd keys st hinv
  rw [heq] at h
  exact h

/-- The Phase-1 hall loop preserves the invariant and only adds
allocations of this hall. -/
theorem fill_hall_loop_inv (cfg : Cfg) (hspb : cfg.spb = 3) (hid benches target : Nat) :
    ∀ (fuel : Nat) (allowed : List Nat) (hsd : List (Nat × Nat)) (placed : Bool)
      (st : AllocState), StInv st →
      StInv (fill_hall_loop cfg hid benches target fuel allowed hsd placed st) ∧
      ∃ tail, (fill_hall_loop cfg hid benches target fuel allowed hsd placed st).allocs =
        st.allocs ++ tail ∧ ∀ a ∈ tail, a.hall = hid
  | 0, _, _, _, st, hinv => ⟨hinv, [], by simp [fill_hall_loop], by simp⟩
  | fuel + 1, allowed, hsd, placed, st, hinv => by
    simp only [fill_hall_loop]
    rw [hspb]
    split
    · split
      · case _ st1 hsd1 heq =>
        obtain ⟨hinv1, tail1, ht1, hh1⟩ := try_place_keys_inv' heq hinv
        obtain ⟨hinv2, tail2, ht2, hh2⟩ :=
          fill_hall_loop_inv cfg hspb hid benches target fuel allowed hsd1 true st1 hinv1
        refine ⟨hinv2, tail1 ++ tail2, ?_, ?_⟩
        · rw [ht2, ht1, List.append_assoc]
        · intro a ha
          rcases List.mem_append.mp ha with h | h
          exacts [hh1 a h, hh2 a h]
      · case _ st1 hsd1 heq =>
        obtain ⟨hinv1, tail1, ht1, hh1⟩ := try_place_keys_inv' heq hinv
        split
        · split
          · case _ d hfind =>
            obtain ⟨hinv2, tail2, ht2, hh2⟩ := fill_hall_loop_inv cfg hspb hid benches
              target fuel (allowed ++ [d]) hsd1 true st1 hinv1
            refine ⟨hinv2, tail1 ++ tail2, ?_, ?_⟩
            · rw [ht2, ht1, List.append_assoc]
            · intro a ha
              rcases List.mem_append.mp ha with h | h
              exacts [hh1 a h, hh2 a h]
          · exact ⟨hinv1, tail1, ht1, hh1⟩
        · obtain ⟨hinv2, tail2, ht2, hh2⟩ := fill_hall_loop_inv cfg hspb hid benches
            target fuel allowed hsd1 false st1 hinv1
          refine ⟨hinv2, tail1 ++ tail2, ?_, ?_⟩
          · rw [ht2, ht1, List.append_assoc]
          · intro a ha
            rcases List.mem_append.mp ha with h | h
            exacts [hh1 a h, hh2 a h]
    · exact ⟨hinv, [], by simp, by simp⟩

end Allocation

theorem insertLe_perm (le : α → α → Bool) (x : α) (l : List α) :
    (insertLe le x l).Perm (x :: l) := by
  induction l with
  | nil => simp [insertLe]
  | cons y ys ih =>
    simp only [insertLe]
    by_cases h : le x y
    · rw [if_pos h]
    · rw [if_neg h]
      exact (ih.cons y).trans (List.Perm.swap x y ys)

theorem sortLe_perm (le : α → α → Bool) (l : List α) : (sortLe le l).Perm l := by
  induction l with
  | nil => simp [sortLe]
  | cons x xs ih =>
    simp only [sortLe]
    exact (insertLe_perm le x (sortLe le xs)).trans (ih.cons x)

namespace Allocation

/-- Re-initialising a hall's matrix (and seat list) preserves the
invariant as long as no existing allocation references that hall. -/
theorem StInv_reset {st : AllocState} (hinv : StInv st) {hid : Nat}
    (hfresh : ∀ a ∈ st.allocs, a.hall ≠ hid) :
    StInv { st with matrices := alInsert st.matrices hid [],
                    seats := alInsert st.seats hid [] } := by
  constructor
  · intro pr hpr
    rcases mem_alInsert hpr with h1 | h1
    · rw [h1]
      exact ⟨MatOK_nil, PosOK_nil⟩
    · exact hinv.1 pr h1
  · intro a ha
    obtain ⟨e, hmem, hname⟩ := hinv.2 a ha
    refine ⟨e, ?_, hname⟩
    rw [alLookup_alInsert_ne _ _ (fun hc => hfresh a ha hc.symm)]
    exact hmem

/-- Phase 1 preserves the invariant when the remaining halls have
duplicate-free ids not yet referenced by any allocation. -/
theorem phase1_inv (cfg : Cfg) (hspb : cfg.spb = 3) :
    ∀ (halls : List ExamHall) (st : AllocState), StInv st →
      (halls.map (fun h => h.hid)).Nodup →
      (∀ a ∈ st.allocs, a.hall ∉ halls.map (fun h => h.hid)) →
      StInv (phase1 cfg halls st).1
  | [], st, hinv, _, _ => hinv
  | h :: rest, st, hinv, hnd, hfr => by
    simp only [phase1]
    split
    · exact hinv
    · split
      · exact StInv_reset hinv (fun a ha hc => hfr a ha (by simp [hc]))
      · have hinv1 : StInv { st with
            matrices := alInsert st.matrices h.hid []
            seats := alInsert st.seats h.hid [] } :=
          StInv_reset hinv (fun a ha hc => hfr a ha (by simp [hc]))
        obtain ⟨hinv3, tail, htail, hhall⟩ := fill_hall_loop_inv cfg hspb h.hid
          (hall_benches cfg h) (hall_target cfg h)
          (count_remaining st.pools + cfg.all_depts.length + hall_target cfg h + 2)
          (choose_pair cfg st.pools
            (List.filter (fun d => decide (0 < get_dept_remaining st.pools cfg.initKeys d))
              cfg.all_depts) st.dpi).1
          [] true
          { pools := st.pools
            allocs := st.allocs
            matrices := alInsert st.matrices h.hid []
            seats := alInsert st.seats h.hid []
            dpi := (choose_pair cfg st.pools
              (List.filter (fun d => decide (0 < get_dept_remaining st.pools cfg.initKeys d))
                cfg.all_depts) st.dpi).2 }
          ⟨hinv1.1, hinv1.2⟩
        refine phase1_inv cfg hspb rest _ hinv3 hnd.of_cons ?_
        intro a ha
        rw [htail] at ha
        rcases List.mem_append.mp ha with h1 | h1
        · intro hcontra
          exact hfr a h1 (List.mem_cons_of_mem _ hcontra)
        · rw [hhall a h1]
          exact (List.nodup_cons.mp (by simpa using hnd)).1

end Allocation

namespace Allocation

theorem phase2_loop_inv (cfg : Cfg) (hspb : cfg.spb = 3) (hid benches : Nat) :
    ∀ (fuel : Nat) (allowed : List Nat) (hsd : List (Nat × Nat)) (st : AllocState),
      StInv st → StInv (phase2_loop cfg hid benches fuel allowed hsd st)
  | 0, _, _, st, hinv => hinv
  | fuel + 1, allowed, hsd, st, hinv => by
    simp only [phase2_loop]
    rw [hspb]
    split
    · split
      · case _ st1 hsd1 heq =>
        exact phase2_loop_inv cfg hspb hid benches fuel allowed hsd1 st1
          (try_place_keys_inv' heq hinv).1
      · case _ st1 hsd1 heq =>
        exact (try_place_keys_inv' heq hinv).1
    · exact hinv

theorem phase2_inv (cfg : Cfg) (hspb : cfg.spb = 3) :
    ∀ (halls : List ExamHall) (st : AllocState), StInv st →
      StInv (phase2 cfg halls st)
  | [], st, hinv => hinv
  | h :: rest, st, hinv => by
    simp only [phase2]
    split
    · exact hinv
    · split
      · case _ hnone =>
        have hinv1 : StInv { st with
            matrices := alInsert st.matrices h.hid []
            seats := alInsert st.seats h.hid [] } := by
          refine StInv_reset hinv ?_
          intro a ha hc
          obtain ⟨e, hmem, _⟩ := hinv.2 a ha
          rw [hc, Option.isNone_iff_eq_none.mp hnone] at hmem
          simp at hmem
        split
        · exact hinv1
        · exact phase2_inv cfg hspb rest _
            (phase2_loop_inv cfg hspb h.hid (hall_benches cfg h) _ _ _ _ hinv1)
      · split
        · exact hinv
        · exact phase2_inv cfg hspb rest _
            (phase2_loop_inv cfg hspb h.hid (hall_benches cfg h) _ _ _ _ hinv)

theorem final_fold_inv (halls : List ExamHall) :
    ∀ st : AllocState, StInv st →
      StInv (halls.foldl
        (fun st h =>
          { st with
            seats := if (alLookup st.seats h.hid).isNone then alInsert st.seats h.hid []
                     else st.seats
            matrices := if (alLookup st.matrices h.hid).isNone then
                          alInsert st.matrices h.hid []
                        else st.matrices })
        st) ∧
      (halls.foldl
        (fun st h =>
          { st with
            seats := if (alLookup st.seats h.hid).isNone then alInsert st.seats h.hid []
                     else st.seats
            matrices := if (alLookup st.matrices h.hid).isNone then
                          alInsert st.matrices h.hid []
                        else st.matrices })
        st).allocs = st.allocs := by
  induction halls with
  | nil => exact fun st hinv => ⟨hinv, rfl⟩
  | cons h rest ih =>
    intro st hinv
    simp only [List.foldl_cons]
    have hstep : StInv { st with
        seats := if (alLookup st.seats h.hid).isNone then alInsert st.seats h.hid []
                 else st.seats
        matrices := if (alLookup st.matrices h.hid).isNone then
                      alInsert st.matrices h.hid []
                    else st.matrices } := by
      constructor
      · intro pr hpr
        simp only at hpr
        split at hpr
        · case _ hnone =>
          rcases mem_alInsert hpr with h1 | h1
          · rw [h1]; exact ⟨MatOK_nil, PosOK_nil⟩
          · exact hinv.1 pr h1
        · exact hinv.1 pr hpr
      · intro a ha
        obtain ⟨e, hmem, hname⟩ := hinv.2 a ha
        refine ⟨e, ?_, hname⟩
        simp only
        split
        · case _ hnone =>
          have hne : h.hid ≠ a.hall := by
            intro hc
            rw [← hc, Option.isNone_iff_eq_none.mp hnone] at hmem
            simp at hmem
          rw [alLookup_alInsert_ne _ _ hne]
          exact hmem
        · exact hmem
    obtain ⟨hi1, hi2⟩ := ih _ hstep
    exact ⟨hi1, by rw [hi2]⟩

theorem StInv_no_adjacent {st : AllocState} (hinv : StInv st) :
    ∀ a1 ∈ st.allocs, ∀ a2 ∈ st.allocs, a1.hall = a2.hall → a1.bench = a2.bench →
      adjacentPos a1.pos a2.pos → a1.stu.subjName ≠ a2.stu.subjName := by
  intro a1 ha1 a2 ha2 hhall hbench hadj
  obtain ⟨e1, hm1, hn1⟩ := hinv.2 a1 ha1
  obtain ⟨e2, hm2, hn2⟩ := hinv.2 a2 ha2
  rw [hhall] at hm1
  cases hmx : alLookup st.matrices a2.hall with
  | none => rw [hmx] at hm1; simp at hm1
  | some mx =>
    rw [hmx] at hm1 hm2
    simp only [Option.getD_some] at hm1 hm2
    have hok := (hinv.1 (a2.hall, mx) (alLookup_mem hmx)).1
    have hne := hok.2 ((a1.bench, a1.pos), e1) hm1 ((a2.bench, a2.pos), e2) hm2
      (by simpa using hbench) (by simpa using hadj)
    rw [← hn1, ← hn2]
    exact hne

/-- The result of `allocate_seats` (with 3 seats per bench) is the
allocation list of a state satisfying the allocation invariant. -/
theorem allocate_seats_inv (input : List (Key × List Student)) (halls : List ExamHall)
    (bph : Nat) (tc : Option Nat) (nm : List (Nat × String))
    (hnd : (halls.map (fun h => h.hid)).Nodup) :
    ∃ st : AllocState, (allocate_seats input halls 3 bph tc nm).allocations = st.allocs ∧
      StInv st := by
  have hndsorted : ((sortLe (fun h1 h2 => strLe (hall_key h1) (hall_key h2)) halls).map
      (fun h => h.hid)).Nodup :=
    (((sortLe_perm _ halls).map (fun h => h.hid)).nodup_iff).mpr hnd
  simp only [allocate_seats]
  refine ⟨_, rfl, ?_⟩
  refine (final_fold_inv _ _ ?_).1
  refine phase2_inv _ rfl _ _ ?_
  refine phase1_inv _ rfl _ _ ?_ hndsorted ?_
  · exact ⟨fun pr hpr => absurd hpr (List.not_mem_nil pr),
      fun a ha => absurd ha (List.not_mem_nil a)⟩
  · exact fun a ha => absurd ha (List.not_mem_nil a)

/-- C3: for every call to `allocate_seats` with 3 seats per bench (on a
hall list with distinct ids, as the data model guarantees), no two
assignments of the returned allocation occupy adjacent positions of the
same bench of the same hall while sharing a subject name, where
position 2 is adjacent to 1 and 3 and positions 1 and 3 only to 2. -/
theorem allocate_seats_no_adjacent_same_name
    (input : List (Key × List Student)) (halls : List ExamHall)
    (bph : Nat) (tc : Option Nat) (nm : List (Nat × String))
    (hnd : (halls.map (fun h => h.hid)).Nodup) :
    ∀ a1 ∈ (allocate_seats input halls 3 bph tc nm).allocations,
    ∀ a2 ∈ (allocate_seats input halls 3 bph tc nm).allocations,
      a1.hall = a2.hall → a1.bench = a2.bench → adjacentPos a1.pos a2.pos →
      a1.stu.subjName ≠ a2.stu.subjName := by
  obtain ⟨st, heq, hinv⟩ := allocate_seats_inv input halls bph tc nm hnd
  rw [heq]
  exact StInv_no_adjacent hinv

/-- Witness for C3: the adjacency theorem applied to a concrete
two-department allocation (both departments sharing subject name X). -/
theorem allocate_seats_no_adjacent_same_name_witness :
    (([⟨1, "H1", 6⟩] : List ExamHall).map (fun h => h.hid)).Nodup ∧
    (∀ a1 ∈ (allocate_seats
        [((1, 11), [⟨101, "r1", "A1"⟩, ⟨102, "r2", "A2"⟩, ⟨103, "r3", "A3"⟩]),
         ((2, 21), [⟨201, "r4", "B1"⟩, ⟨202, "r5", "B2"⟩, ⟨203, "r6", "B3"⟩])]
        [⟨1, "H1", 6⟩] 3 15 none [(11, "X"), (21, "X")]).allocations,
     ∀ a2 ∈ (allocate_seats
        [((1, 11), [⟨101, "r1", "A1"⟩, ⟨102, "r2", "A2"⟩, ⟨103, "r3", "A3"⟩]),
         ((2, 21), [⟨201, "r4", "B1"⟩, ⟨202, "r5", "B2"⟩, ⟨203, "r6", "B3"⟩])]
        [⟨1, "H1", 6⟩] 3 15 none [(11, "X"), (21, "X")]).allocations,
      a1.hall = a2.hall → a1.bench = a2.bench → adjacentPos a1.pos a2.pos →
      a1.stu.subjName ≠ a2.stu.subjName) :=
  ⟨by decide, allocate_seats_no_adjacent_same_name _ _ _ _ _ (by decide)⟩

end Allocation

theorem alInsert_keys_nodup [DecidableEq κ] {l : List (κ × β)} (k : κ) (v : β)
    (h : (l.map Prod.fst).Nodup) : ((alInsert l k v).map Prod.fst).Nodup := by
  induction l with
  | nil => simp [alInsert]
  | cons hd tl ih =>
    obtain ⟨k0, v0⟩ := hd
    simp only [alInsert]
    by_cases hk : k0 = k
    · rw [if_pos hk]
      subst hk
      simpa using h
    · rw [if_neg hk]
      simp only [List.map_cons, List.nodup_cons] at h ⊢
      refine ⟨?_, ih h.2⟩
      intro hc
      rcases List.mem_map.mp hc with ⟨pr, hpr, hfst⟩
      rcases mem_alInsert hpr with h1 | h1
      · exact hk (by rw [h1] at hfst; exact hfst.symm ▸ rfl)
      · exact h.1 (hfst ▸ List.mem_map.mpr ⟨pr, h1, rfl⟩)

namespace Allocation

theorem build_pools_fold_mem {nm : List (Nat × String)} :
    ∀ (input : List (Key × List Student)) (acc : Pools × List (Nat × Nat))
      (pr : Key × List StuTuple),
      pr ∈ (input.foldl
        (fun acc p =>
          (alInsert acc.1 p.1
            (p.2.map (fun st => ⟨st.sid, st.roll, st.sname, p.1.1, p.1.2,
              subj_name_of nm p.1.2⟩)),
           alInsert acc.2 p.1.1 ((alLookup acc.2 p.1.1).getD 0 + p.2.length)))
        acc).1 →
      pr ∈ acc.1 ∨ ∃ p ∈ input, p.1 = pr.1 ∧ pr.2.length = p.2.length
  | [], _, _, h => Or.inl h
  | p :: input, acc, pr, h => by
    rcases build_pools_fold_mem input _ pr h with h1 | ⟨p2, hp2, he⟩
    · rcases mem_alInsert h1 with h2 | h2
      · right
        refine ⟨p, List.mem_cons_self _ _, ?_, ?_⟩
        · rw [h2]
        · rw [h2]
          simp
      · exact Or.inl h2
    · exact Or.inr ⟨p2, List.mem_cons_of_mem _ hp2, he⟩

theorem build_pools_mem {nm : List (Nat × String)} {input : List (Key × List Student)}
    {pr : Key × List StuTuple} (h : pr ∈ (build_pools nm input).1) :
    ∃ p ∈ input, p.1 = pr.1 ∧ pr.2.length = p.2.length := by
  unfold build_pools at h
  rcases build_pools_fold_mem input ([], []) pr h with h1 | h1
  · exact absurd h1 (List.not_mem_nil pr)
  · exact h1

theorem build_pools_totals_nodup {nm : List (Nat × String)} :
    ∀ (input : List (Key × List Student)) (acc : Pools × List (Nat × Nat)),
      (acc.2.map Prod.fst).Nodup →
      (((input.foldl
        (fun acc p =>
          (alInsert acc.1 p.1
            (p.2.map (fun st => ⟨st.sid, st.roll, st.sname, p.1.1, p.1.2,
              subj_name_of nm p.1.2⟩)),
           alInsert acc.2 p.1.1 ((alLookup acc.2 p.1.1).getD 0 + p.2.length)))
        acc).2).map Prod.fst).Nodup
  | [], _, h => h
  | p :: input, acc, h =>
    build_pools_totals_nodup input _ (alInsert_keys_nodup _ _ h)

/-- A department with remaining students has a non-empty pool entry of
that department. -/
theorem get_dept_remaining_pos {pools : Pools} {initKeys : List Key} {d : Nat}
    (h : 0 < get_dept_remaining pools initKeys d) :
    ∃ k l, k ∈ initKeys ∧ k.1 = d ∧ alLookup pools k = some l ∧ l ≠ [] := by
  unfold get_dept_remaining at h
  by_contra hc
  push_neg at hc
  have hzero : ∀ x ∈ (keys_for_dept initKeys d).map
      (fun k => ((alLookup pools k).getD []).length), x = 0 := by
    intro x hx
    rcases List.mem_map.mp hx with ⟨k, hk, hval⟩
    obtain ⟨hkmem, hkd⟩ := List.mem_filter.mp hk
    cases hl : alLookup pools k with
    | none => rw [hl] at hval; simpa using hval.symm
    | some l =>
      have := hc k l hkmem (by simpa using hkd) hl
      subst this
      rw [hl] at hval
      simpa using hval.symm
  rw [List.sum_eq_zero hzero] at h
  exact absurd h (lt_irrefl 0)

theorem filter_length_le_one {l : List Nat} {p : Nat → Bool} (hnd : l.Nodup)
    (huniq : ∀ a ∈ l, ∀ b ∈ l, p a = true → p b = true → a = b) :
    (l.filter p).length ≤ 1 := by
  rcases hfl : l.filter p with _ | ⟨x, t⟩
  · simp
  · cases t with
    | nil => simp
    | cons y t2 =>
      exfalso
      have hx : x ∈ l.filter p := by rw [hfl]; exact List.mem_cons_self _ _
      have hy : y ∈ l.filter p := by rw [hfl]; simp
      have hflnd : (l.filter p).Nodup := hnd.filter p
      rw [hfl] at hflnd
      have hxy : x ≠ y := by
        intro hc
        exact (List.nodup_cons.mp hflnd).1 (hc ▸ List.mem_cons_self _ _)
      obtain ⟨hxl, hpx⟩ := List.mem_filter.mp hx
      obtain ⟨hyl, hpy⟩ := List.mem_filter.mp hy
      exact hxy (huniq x hxl y hyl hpx hpy)

theorem phase1_stops (cfg : Cfg) (halls : List ExamHall) (st : AllocState)
    (hlt : (cfg.all_depts.filter
      (fun d => decide (0 < get_dept_remaining st.pools cfg.initKeys d))).length < 2) :
    (phase1 cfg halls st).1.allocs = st.allocs ∧
    (phase1 cfg halls st).1.pools = st.pools := by
  cases halls with
  | nil => exact ⟨rfl, rfl⟩
  | cons h rest =>
    simp only [phase1]
    split
    · exact ⟨rfl, rfl⟩
    · exact ⟨rfl, rfl⟩

theorem phase2_stops (cfg : Cfg) (halls : List ExamHall) (st : AllocState)
    (hlt : (cfg.all_depts.filter
      (fun d => decide (0 < get_dept_remaining st.pools cfg.initKeys d))).length < 2) :
    (phase2 cfg halls st).allocs = st.allocs := by
  cases halls with
  | nil => rfl
  | cons h rest =>
    simp only [phase2]
    split
    · rfl
    · split
      · rfl
      · rfl

theorem final_fold_allocs (halls : List ExamHall) (st : AllocState) :
    (halls.foldl
      (fun st h =>
        { st with
          seats := if (alLookup st.seats h.hid).isNone then alInsert st.seats h.hid []
                   else st.seats
          matrices := if (alLookup st.matrices h.hid).isNone then
                        alInsert st.matrices h.hid []
                      else st.matrices })
      st).allocs = st.allocs := by
  induction halls generalizing st with
  | nil => rfl
  | cons h rest ih => exact ih _

theorem allocate_pipeline_empty (cfg : Cfg) (halls1 : List ExamHall) (st0 : AllocState)
    (hlt : (cfg.all_depts.filter
      (fun d => decide (0 < get_dept_remaining st0.pools cfg.initKeys d))).length < 2) :
    (phase2 cfg (phase1 cfg halls1 st0).2 (phase1 cfg halls1 st0).1).allocs =
      st0.allocs := by
  obtain ⟨h1, h2⟩ := phase1_stops cfg halls1 st0 hlt
  rw [phase2_stops cfg _ _ (by rw [h2]; exact hlt), h1]

end Allocation

namespace Allocation

/-- C10 (amended): the fewer-than-two-departments check is applied at
hall boundaries; when the input pools span fewer than two departments
with students (in particular for a single-department input),
`allocate_seats` returns an empty assignment list. -/
theorem allocate_seats_single_department_empty
    (input : List (Key × List Student)) (halls : List ExamHall)
    (spb bph : Nat) (tc : Option Nat) (nm : List (Nat × String))
    (huniq : ∀ p1 ∈ input, ∀ p2 ∈ input, p1.2 ≠ [] → p2.2 ≠ [] → p1.1.1 = p2.1.1) :
    (allocate_seats input halls spb bph tc nm).allocations = [] := by
  have hD : ∀ d1 d2 : Nat,
      0 < get_dept_remaining (build_pools nm input).1
        ((build_pools nm input).1.map Prod.fst) d1 →
      0 < get_dept_remaining (build_pools nm input).1
        ((build_pools nm input).1.map Prod.fst) d2 → d1 = d2 := by
    intro d1 d2 h1 h2
    obtain ⟨k1, l1, hk1, hd1, hl1, hne1⟩ := get_dept_remaining_pos h1
    obtain ⟨k2, l2, hk2, hd2, hl2, hne2⟩ := get_dept_remaining_pos h2
    obtain ⟨p1, hp1, hpk1, hlen1⟩ := build_pools_mem (alLookup_mem hl1)
    obtain ⟨p2, hp2, hpk2, hlen2⟩ := build_pools_mem (alLookup_mem hl2)
    have hne1' : p1.2 ≠ [] := by
      intro hc
      rw [hc] at hlen1
      simp only [List.length_nil] at hlen1
      exact hne1 (List.length_eq_zero.mp hlen1)
    have hne2' : p2.2 ≠ [] := by
      intro hc
      rw [hc] at hlen2
      simp only [List.length_nil] at hlen2
      exact hne2 (List.length_eq_zero.mp hlen2)
    have heq := huniq p1 hp1 p2 hp2 hne1' hne2'
    have hk1' : p1.1 = k1 := hpk1
    have hk2' : p2.1 = k2 := hpk2
    rw [← hd1, ← hd2, ← hk1', ← hk2']
    exact heq
  have hndtot : (((build_pools nm input).2).map Prod.fst).Nodup := by
    unfold build_pools
    exact build_pools_totals_nodup input ([], []) (by simp)
  have hndall : (sortLe (fun a b => decide ((alLookup (build_pools nm input).2 b).getD 0 ≤
      (alLookup (build_pools nm input).2 a).getD 0))
      (((build_pools nm input).2).map Prod.fst)).Nodup :=
    ((sortLe_perm _ _).nodup_iff).mpr hndtot
  have hle1 := filter_length_le_one (l := sortLe
      (fun a b => decide ((alLookup (build_pools nm input).2 b).getD 0 ≤
        (alLookup (build_pools nm input).2 a).getD 0))
      (((build_pools nm input).2).map Prod.fst))
    (p := fun d => decide (0 < get_dept_remaining (build_pools nm input).1
      ((build_pools nm input).1.map Prod.fst) d))
    hndall
    (fun a _ b _ ha hb => hD a b (of_decide_eq_true ha) (of_decide_eq_true hb))
  simp only [allocate_seats]
  refine Eq.trans (final_fold_allocs _ _) ?_
  refine Eq.trans (allocate_pipeline_empty _ _ _ ?_) rfl
  exact Nat.lt_succ_of_le hle1

end Allocation

namespace Allocation

/-- Witness for the amended C10: a concrete single-department input
(two students, ample hall capacity) receives no assignment at all. -/
theorem allocate_seats_single_department_empty_witness :
    (∀ p1 ∈ [((1, 11), [Student.mk 101 "r1" "A1", Student.mk 102 "r2" "A2"])],
     ∀ p2 ∈ [((1, 11), [Student.mk 101 "r1" "A1", Student.mk 102 "r2" "A2"])],
       p1.2 ≠ [] → p2.2 ≠ [] → p1.1.1 = p2.1.1) ∧
    (allocate_seats [((1, 11), [Student.mk 101 "r1" "A1", Student.mk 102 "r2" "A2"])]
      [⟨1, "H1", 45⟩] 3 15 none [(11, "Alg")]).allocations = [] :=
  ⟨by decide,
   allocate_seats_single_department_empty _ _ 3 15 none _ (by decide)⟩

/-- C10 (counterexample to the claim as stated): departments 1 (two
students) and 2 (one student) in a 45-seat hall; after the second
placement only department 1 still has an unplaced student, yet that
student is still seated, so all three students receive seats. -/
theorem allocate_seats_seats_last_department :
    (allocate_seats
      [((1, 11), [Student.mk 101 "r1" "A1", Student.mk 102 "r2" "A2"]),
       ((2, 21), [Student.mk 201 "r3" "B1"])]
      [⟨1, "H1", 45⟩] 3 15 none [(11, "Alg"), (21, "Geo")]).allocations.length = 3 ∧
    (Alloc.mk 1 1 3 ⟨102, "r2", "A2", 1, 11, "Alg"⟩) ∈
      (allocate_seats
        [((1, 11), [Student.mk 101 "r1" "A1", Student.mk 102 "r2" "A2"]),
         ((2, 21), [Student.mk 201 "r3" "B1"])]
        [⟨1, "H1", 45⟩] 3 15 none [(11, "Alg"), (21, "Geo")]).allocations := by decide

/-- C6 (counterexample to the claim as stated): with no halls configured
and one student, the total student count exceeds the total capacity (0),
but the request fails with the no-halls diagnostic, not with
`InsufficientCapacity`. -/
theorem run_allocation_no_halls_shadows_capacity :
    (([] : List ExamHall).map (fun h => h.capacity)).sum <
      ([Student.mk 1 "r1" "Ann"] : List Student).length ∧
    (run_allocation [Student.mk 1 "r1" "Ann"] []
      [((1, 11), [Student.mk 1 "r1" "Ann"])] [] 3 15).2 = some RunDiag.noHalls ∧
    (run_allocation [Student.mk 1 "r1" "Ann"] []
      [((1, 11), [Student.mk 1 "r1" "Ann"])] [] 3 15).1.isNone = true := by decide

/-- C6 (amended): provided at least one hall is configured, a request
whose total student count exceeds the total hall capacity fails fast,
with no allocation computed and a diagnostic carrying the exact deficit
(total students minus total capacity). -/
theorem run_allocation_insufficient_capacity
    (students : List Student) (halls : List ExamHall)
    (input : List (Key × List Student)) (nm : List (Nat × String)) (spb bph : Nat)
    (hh : halls ≠ [])
    (hcap : (halls.map (fun h => h.capacity)).sum < students.length) :
    run_allocation students halls input nm spb bph =
      (none, some (RunDiag.insufficientCapacity
        (students.length - (halls.map (fun h => h.capacity)).sum))) := by
  simp only [run_allocation]
  rw [if_neg (by simpa using hh), if_pos hcap]

/-- Witness for the amended C6: three students, one two-seat hall, so
the call reports a deficit of exactly one seat and no assignments. -/
theorem run_allocation_insufficient_capacity_witness :
    (([⟨1, "H1", 2⟩] : List ExamHall) ≠ []) ∧
    (([⟨1, "H1", 2⟩] : List ExamHall).map (fun h => h.capacity)).sum <
      ([Student.mk 1 "a" "A", Student.mk 2 "b" "B", Student.mk 3 "c" "C"] :
        List Student).length ∧
    run_allocation [Student.mk 1 "a" "A", Student.mk 2 "b" "B", Student.mk 3 "c" "C"]
      [⟨1, "H1", 2⟩] [((1, 11), [Student.mk 1 "a" "A"])] [] 3 15 =
      (none, some (RunDiag.insufficientCapacity 1)) :=
  ⟨by decide, by decide,
   run_allocation_insufficient_capacity
     [Student.mk 1 "a" "A", Student.mk 2 "b" "B", Student.mk 3 "c" "C"]
     [⟨1, "H1", 2⟩] [((1, 11), [Student.mk 1 "a" "A"])] [] 3 15
     (by decide) (by decide)⟩

end Allocation

namespace Allocation

theorem hallAllocs_append (l1 l2 : List Alloc) (hid : Nat) :
    hallAllocs (l1 ++ l2) hid = hallAllocs l1 hid ++ hallAllocs l2 hid :=
  List.filter_append _ _

theorem TwoDepts_append {l : List Alloc} (t : List Alloc) (h : TwoDepts l) :
    TwoDepts (l ++ t) := by
  obtain ⟨a1, h1, a2, h2, hne⟩ := h
  exact ⟨a1, List.mem_append_left _ h1, a2, List.mem_append_left _ h2, hne⟩

theorem HallInv_done {cfg : Cfg} {hid d0 d1 : Nat} {allowed0 allowed : List Nat}
    {hsd : List (Nat × Nat)} {st : AllocState}
    (h : HallInv cfg hid d0 d1 allowed0 allowed hsd st) :
    HallDone (hallAllocs st.allocs hid) := by
  rcases h with ⟨hA, _⟩ | ⟨a0, e0, hA, _⟩ | hT
  · rw [hA]; exact Or.inl (by simp)
  · rw [hA]; exact Or.inl (by simp)
  · exact Or.inr hT

theorem PoolsWF_alInsert {pools : Pools} (h : PoolsWF pools) {k : Key}
    {x : StuTuple} {xs : List StuTuple} (hlk : alLookup pools k = some (x :: xs)) :
    PoolsWF (alInsert pools k xs) := by
  intro pr hpr stu hstu
  rcases mem_alInsert hpr with h1 | h1
  · subst h1
    exact h (k, x :: xs) (alLookup_mem hlk) stu (List.mem_cons_of_mem _ hstu)
  · exact h pr h1 stu hstu

theorem try_place_PoolsWF (hid benches spb : Nat) :
    ∀ (hsd : List (Nat × Nat)) (keys : List Key) (st : AllocState), PoolsWF st.pools →
      PoolsWF (try_place_keys hid benches spb hsd keys st).2.1.pools
  | _, [], _, h => h
  | hsd, k :: rest, st, h => by
    simp only [try_place_keys]
    split
    · exact try_place_PoolsWF hid benches spb hsd rest st h
    · split
      · exact try_place_PoolsWF hid benches spb hsd rest st h
      · case _ stu pools' heq =>
        split
        · case _ q hseat =>
          cases hlk : alLookup st.pools k with
          | none => rw [pop_student, hlk] at heq; exact absurd heq (by simp)
          | some l =>
            cases l with
            | nil => rw [pop_student, hlk] at heq; exact absurd heq (by simp)
            | cons y ys =>
              rw [pop_student, hlk] at heq
              simp only [Option.some.injEq, Prod.mk.injEq] at heq
              have hp : pools' = alInsert st.pools k ys := heq.2.symm
              subst hp
              exact PoolsWF_alInsert h hlk
        · exact try_place_PoolsWF hid benches spb hsd rest st h

theorem try_place_PoolsWF' {hid benches spb : Nat} {hsd : List (Nat × Nat)}
    {keys : List Key} {st : AllocState} {b : Bool} {st1 : AllocState}
    {hsd1 : List (Nat × Nat)}
    (heq : try_place_keys hid benches spb hsd keys st = (b, st1, hsd1))
    (h : PoolsWF st.pools) : PoolsWF st1.pools := by
  have h2 := try_place_PoolsWF hid benches spb hsd keys st h
  rw [heq] at h2
  exact h2

theorem fill_hall_loop_PoolsWF (cfg : Cfg) (hid benches target : Nat) :
    ∀ (fuel : Nat) (allowed : List Nat) (hsd : List (Nat × Nat)) (placed : Bool)
      (st : AllocState), PoolsWF st.pools →
      PoolsWF (fill_hall_loop cfg hid benches target fuel allowed hsd placed st).pools
  | 0, _, _, _, _, h => h
  | fuel + 1, allowed, hsd, placed, st, h => by
    simp only [fill_hall_loop]
    split
    · split
      · case _ st1 hsd1 heq =>
        exact fill_hall_loop_PoolsWF cfg hid benches target fuel allowed hsd1 true st1
          (try_place_PoolsWF' heq h)
      · case _ st1 hsd1 heq =>
        have h1 : PoolsWF st1.pools := try_place_PoolsWF' heq h
        split
        · split
          · case _ d hfind =>
            exact fill_hall_loop_PoolsWF cfg hid benches target fuel (allowed ++ [d])
              hsd1 true st1 h1
          · exact h1
        · exact fill_hall_loop_PoolsWF cfg hid benches target fuel allowed hsd1 false st1 h1
    · exact h

theorem try_place_allocs (hid benches spb : Nat) :
    ∀ (hsd : List (Nat × Nat)) (keys : List Key) (st : AllocState),
      ∃ t, (try_place_keys hid benches spb hsd keys st).2.1.allocs = st.allocs ++ t ∧
        ∀ a ∈ t, a.hall = hid
  | _, [], st => ⟨[], by simp [try_place_keys], by simp⟩
  | hsd, k :: rest, st => by
    simp only [try_place_keys]
    split
    · exact try_place_allocs hid benches spb hsd rest st
    · split
      · exact try_place_allocs hid benches spb hsd rest st
      · case _ stu pools' heq =>
        split
        · case _ q hseat =>
          refine ⟨[⟨hid, q.1, q.2, stu⟩], rfl, ?_⟩
          intro a ha
          simp only [List.mem_singleton] at ha
          subst ha
          rfl
        · exact try_place_allocs hid benches spb hsd rest st

theorem try_place_allocs' {hid benches spb : Nat} {hsd : List (Nat × Nat)}
    {keys : List Key} {st : AllocState} {b : Bool} {st1 : AllocState}
    {hsd1 : List (Nat × Nat)}
    (heq : try_place_keys hid benches spb hsd keys st = (b, st1, hsd1)) :
    ∃ t, st1.allocs = st.allocs ++ t ∧ ∀ a ∈ t, a.hall = hid := by
  obtain ⟨t, ht, hh⟩ := try_place_allocs hid benches spb hsd keys st
  rw [heq] at ht
  exact ⟨t, ht, hh⟩

theorem fill_hall_loop_allocs (cfg : Cfg) (hid benches target : Nat) :
    ∀ (fuel : Nat) (allowed : List Nat) (hsd : List (Nat × Nat)) (placed : Bool)
      (st : AllocState),
      ∃ t, (fill_hall_loop cfg hid benches target fuel allowed hsd placed st).allocs =
        st.allocs ++ t ∧ ∀ a ∈ t, a.hall = hid
  | 0, _, _, _, st => ⟨[], by simp [fill_hall_loop], by simp⟩
  | fuel + 1, allowed, hsd, placed, st => by
    simp only [fill_hall_loop]
    split
    · split
      · case _ st1 hsd1 heq =>
        obtain ⟨t1, ht1, hh1⟩ := try_place_allocs' heq
        obtain ⟨t2, ht2, hh2⟩ :=
          fill_hall_loop_allocs cfg hid benches target fuel allowed hsd1 true st1
        refine ⟨t1 ++ t2, ?_, ?_⟩
        · rw [ht2, ht1, List.append_assoc]
        · intro a ha
          rcases List.mem_append.mp ha with hx | hx
          exacts [hh1 a hx, hh2 a hx]
      · case _ st1 hsd1 heq =>
        obtain ⟨t1, ht1, hh1⟩ := try_place_allocs' heq
        split
        · split
          · case _ d hfind =>
            obtain ⟨t2, ht2, hh2⟩ := fill_hall_loop_allocs cfg hid benches target fuel
              (allowed ++ [d]) hsd1 true st1
            refine ⟨t1 ++ t2, ?_, ?_⟩
            · rw [ht2, ht1, List.append_assoc]
            · intro a ha
              rcases List.mem_append.mp ha with hx | hx
              exacts [hh1 a hx, hh2 a hx]
          · exact ⟨t1, ht1, hh1⟩
        · obtain ⟨t2, ht2, hh2⟩ := fill_hall_loop_allocs cfg hid benches target fuel
            allowed hsd1 false st1
          refine ⟨t1 ++ t2, ?_, ?_⟩
          · rw [ht2, ht1, List.append_assoc]
          · intro a ha
            rcases List.mem_append.mp ha with hx | hx
            exacts [hh1 a hx, hh2 a hx]
    · exact ⟨[], by simp, by simp⟩

end Allocation

namespace Allocation

theorem find_valid_seat_benches_zero (mx : Matrix) (n : String) (spb : Nat) :
    find_valid_seat mx n 0 spb = none := rfl

theorem try_place_benches_zero (hid spb : Nat) :
    ∀ (hsd : List (Nat × Nat)) (keys : List Key) (st : AllocState),
      try_place_keys hid 0 spb hsd keys st = (false, st, hsd)
  | _, [], _ => rfl
  | hsd, k :: rest, st => by
    simp only [try_place_keys]
    split
    · exact try_place_benches_zero hid spb hsd rest st
    · split
      · exact try_place_benches_zero hid spb hsd rest st
      · case _ stu pools' heq =>
        rw [find_valid_seat_benches_zero]
        exact try_place_benches_zero hid spb hsd rest st

theorem fill_hall_loop_benches_zero (cfg : Cfg) (hid target : Nat) :
    ∀ (fuel : Nat) (allowed : List Nat) (hsd : List (Nat × Nat)) (placed : Bool)
      (st : AllocState),
      fill_hall_loop cfg hid 0 target fuel allowed hsd placed st = st
  | 0, _, _, _, _ => rfl
  | fuel + 1, allowed, hsd, placed, st => by
    simp only [fill_hall_loop]
    split
    · rw [try_place_benches_zero]
      split
      · case _ st1 hsd1 heq => simp at heq
      · case _ st1 hsd1 heq =>
        obtain ⟨h1, h2⟩ : st = st1 ∧ hsd = hsd1 := by simpa using heq
        subst h1
        subst h2
        split
        · split
          · case _ d hfind =>
            exact fill_hall_loop_benches_zero cfg hid target fuel (allowed ++ [d]) hsd true st
          · rfl
        · exact fill_hall_loop_benches_zero cfg hid target fuel allowed hsd false st
    · rfl

theorem find_valid_seat_nil (n : String) (b spb : Nat) :
    find_valid_seat [] n (b + 1) (spb + 1) = some (1, 1) := rfl

theorem find_valid_seat_one (e : MatEntry) (n : String) (b : Nat) :
    ∃ q, find_valid_seat [((1, 1), e)] n (b + 1) 3 = some q := by
  obtain ⟨rest, hr⟩ : ∃ rest, seatList (b + 1) 3 = (1, 1) :: (1, 2) :: (1, 3) :: rest :=
    ⟨_, rfl⟩
  by_cases he : e.name = n
  · have hd : decide (e.name = n) = true := by simpa using he
    refine ⟨(1, 3), ?_⟩
    simp only [find_valid_seat, hr]
    rw [List.find?_cons_of_neg _ (by show ¬ false = true; simp),
        List.find?_cons_of_neg _ (by
          show ¬ (!(decide (e.name = n) || false)) = true
          rw [hd]
          simp),
        List.find?_cons_of_pos _ (by show (true : Bool) = true; rfl)]
  · have hd : decide (e.name = n) = false := by simpa using he
    refine ⟨(1, 2), ?_⟩
    simp only [find_valid_seat, hr]
    rw [List.find?_cons_of_neg _ (by show ¬ false = true; simp),
        List.find?_cons_of_pos _ (by
          show (!(decide (e.name = n) || false)) = true
          rw [hd]
          simp)]

theorem try_place_head {hid benches spb : Nat} {hsd : List (Nat × Nat)} {k : Key}
    {rest : List Key} {st : AllocState} {stu : StuTuple} {pools' : Pools}
    {q : Nat × Nat}
    (hc : subject_conflict_in_hall hsd k.1 k.2 = false)
    (hp : pop_student st.pools k = some (stu, pools'))
    (hs : find_valid_seat ((alLookup st.matrices hid).getD []) stu.subjName benches spb =
      some q) :
    try_place_keys hid benches spb hsd (k :: rest) st =
      (true,
       { st with
         pools := pools'
         allocs := st.allocs ++ [⟨hid, q.1, q.2, stu⟩]
         matrices := alInsert st.matrices hid
           (((alLookup st.matrices hid).getD []) ++ [(q, ⟨k.1, k.2, stu.subjName⟩)])
         seats := alInsert st.seats hid (((alLookup st.seats hid).getD []) ++ [q]) },
       if (alLookup hsd k.2).isNone then hsd ++ [(k.2, k.1)] else hsd) := by
  simp only [try_place_keys, hc, hp, hs]
  simp

theorem keys_for_dept_mem {ks : List Key} {d : Nat} {k : Key} :
    k ∈ keys_for_dept ks d ↔ k ∈ ks ∧ k.1 = d := by
  simp [keys_for_dept]

theorem get_keys_sub {pools : Pools} {ks : List Key} {allowed : List Nat} {k : Key}
    (h : k ∈ get_keys_for_depts pools ks allowed) :
    k ∈ ks ∧ ∃ x xs, alLookup pools k = some (x :: xs) := by
  simp only [get_keys_for_depts, List.mem_flatMap] at h
  obtain ⟨d, hd, hk⟩ := h
  obtain ⟨hk1, hk2⟩ := List.mem_filter.mp hk
  refine ⟨(keys_for_dept_mem.mp hk1).1, ?_⟩
  cases hlk : alLookup pools k with
  | none => rw [hlk] at hk2; simp at hk2
  | some l =>
    cases l with
    | nil => rw [hlk] at hk2; simp at hk2
    | cons x xs => exact ⟨x, xs, rfl⟩

theorem mem_get_keys {pools : Pools} {ks : List Key} {allowed : List Nat} {d : Nat}
    {k : Key} (hd : d ∈ allowed) (hk : k ∈ ks) (hkd : k.1 = d) {x : StuTuple}
    {xs : List StuTuple} (hlk : alLookup pools k = some (x :: xs)) :
    k ∈ get_keys_for_depts pools ks allowed := by
  simp only [get_keys_for_depts, List.mem_flatMap]
  exact ⟨d, hd, List.mem_filter.mpr ⟨keys_for_dept_mem.mpr ⟨hk, hkd⟩, by simp [hlk]⟩⟩

theorem get_dept_remaining_alInsert {pools : Pools} {ks : List Key} {k : Key}
    {v : List StuTuple} {d : Nat} (h : ¬ k.1 = d) :
    get_dept_remaining (alInsert pools k v) ks d = get_dept_remaining pools ks d := by
  unfold get_dept_remaining
  congr 1
  apply List.map_congr_left
  intro k' hk'
  have hkd := (keys_for_dept_mem.mp hk').2
  have hne : k ≠ k' := fun hc => h (by rw [hc]; exact hkd)
  rw [alLookup_alInsert_ne _ _ hne]

theorem dedupFirstAux_sub [DecidableEq α] :
    ∀ (seen l : List α) {x : α}, x ∈ dedupFirstAux seen l → x ∈ l
  | _, [], _, h => absurd h (List.not_mem_nil _)
  | seen, y :: ys, x, h => by
    simp only [dedupFirstAux] at h
    split at h
    · exact List.mem_cons_of_mem _ (dedupFirstAux_sub seen ys h)
    · rcases List.mem_cons.mp h with h1 | h1
      · exact h1 ▸ List.mem_cons_self _ _
      · exact List.mem_cons_of_mem _ (dedupFirstAux_sub _ ys h1)

theorem dedupFirst_sub [DecidableEq α] {l : List α} {x : α} (h : x ∈ dedupFirst l) :
    x ∈ l :=
  dedupFirstAux_sub [] l h

theorem mem_of_sortNats {l : List Nat} {x : Nat} (h : x ∈ sortNats l) : x ∈ l :=
  (sortLe_perm _ l).mem_iff.mp h

theorem dedupFirst_pair {a b : Nat} (h : a ≠ b) : dedupFirst [a, b] = [a, b] := by
  simp [dedupFirst, dedupFirstAux, Ne.symm h]

theorem sortNats_pair (a b : Nat) :
    sortNats [a, b] = if a ≤ b then [a, b] else [b, a] := by
  by_cases hab : a ≤ b <;> simp [sortNats, sortLe, insertLe, hab]

end Allocation

namespace Allocation

theorem take_two_spec {l : List Nat} (hnd : l.Nodup) (hlen : 2 ≤ l.length) :
    ∃ x y, l.take 2 = [x, y] ∧ x ≠ y ∧ x ∈ l ∧ y ∈ l := by
  cases l with
  | nil => simp at hlen
  | cons x t =>
    cases t with
    | nil => simp at hlen
    | cons y t2 =>
      refine ⟨x, y, rfl, ?_, List.mem_cons_self _ _,
        List.mem_cons_of_mem _ (List.mem_cons_self _ _)⟩
      intro hc
      exact (List.nodup_cons.mp hnd).1 (hc ▸ List.mem_cons_self _ _)

theorem choose_pair_spec (cfg : Cfg) (pools : Pools) (dpi : Nat)
    (hnd : cfg.all_depts.Nodup) (hsm : cfg.smaller_depts = cfg.all_depts.tail)
    (hdd : cfg.dominant_dept = cfg.all_depts.head?)
    (hlen : 2 ≤ (cfg.all_depts.filter
      (fun d => decide (0 < get_dept_remaining pools cfg.initKeys d))).length) :
    ∃ x y, (choose_pair cfg pools (cfg.all_depts.filter
        (fun d => decide (0 < get_dept_remaining pools cfg.initKeys d))) dpi).1 = [x, y] ∧
      x ≠ y ∧ 0 < get_dept_remaining pools cfg.initKeys x ∧
      0 < get_dept_remaining pools cfg.initKeys y := by
  set dw := cfg.all_depts.filter
    (fun d => decide (0 < get_dept_remaining pools cfg.initKeys d)) with hdwdef
  have hdw_nd : dw.Nodup := hnd.filter _
  obtain ⟨x, y, htk, hxy, hxm, hym⟩ := take_two_spec hdw_nd hlen
  rw [hdwdef] at hxm hym
  have hxr : 0 < get_dept_remaining pools cfg.initKeys x := by
    have := (List.mem_filter.mp hxm).2
    simpa using this
  have hyr : 0 < get_dept_remaining pools cfg.initKeys y := by
    have := (List.mem_filter.mp hym).2
    simpa using this
  cases hddm : cfg.dominant_dept with
  | none =>
    have hres : choose_pair cfg pools dw dpi = (dw.take 2, dpi) := by
      unfold choose_pair
      simp only [hddm]
    exact ⟨x, y, by rw [hres]; exact htk, hxy, hxr, hyr⟩
  | some dd =>
    set sw := cfg.smaller_depts.filter
      (fun d => decide (0 < get_dept_remaining pools cfg.initKeys d)) with hswdef
    by_cases hcond : dd ≠ 0 ∧ dd ∈ dw ∧ ¬ cfg.smaller_depts.isEmpty = true
    · by_cases hswe : sw.isEmpty = true
      · have hres : choose_pair cfg pools dw dpi = (dw.take 2, dpi) := by
          unfold choose_pair
          simp only [hddm]
          rw [if_pos hcond, if_pos hswe]
        exact ⟨x, y, by rw [hres]; exact htk, hxy, hxr, hyr⟩
      · have hres : choose_pair cfg pools dw dpi =
            ([dd, sw.getD (dpi % sw.length) 0], dpi + 1) := by
          unfold choose_pair
          simp only [hddm]
          rw [if_pos hcond, if_neg hswe]
        have hswlen : 0 < sw.length := by
          refine List.length_pos.mpr ?_
          intro hc
          rw [hc] at hswe
          simp at hswe
        have hidx : dpi % sw.length < sw.length := Nat.mod_lt _ hswlen
        have hget : sw.getD (dpi % sw.length) 0 ∈ sw := by
          rw [List.getD_eq_getElem?_getD, List.getElem?_eq_getElem hidx]
          exact List.getElem_mem _
        have hsr : 0 < get_dept_remaining pools cfg.initKeys
            (sw.getD (dpi % sw.length) 0) := by
          have := (List.mem_filter.mp (hswdef ▸ hget)).2
          simpa using this
        have hsw_tail : sw.getD (dpi % sw.length) 0 ∈ cfg.all_depts.tail := by
          rw [← hsm]
          exact (List.mem_filter.mp (hswdef ▸ hget)).1
        have hddr : 0 < get_dept_remaining pools cfg.initKeys dd := by
          have := (List.mem_filter.mp (hdwdef ▸ hcond.2.1)).2
          simpa using this
        have hdne : dd ≠ sw.getD (dpi % sw.length) 0 := by
          intro hc
          cases hall : cfg.all_depts with
          | nil =>
            rw [hall] at hdd
            rw [hdd] at hddm
            simp at hddm
          | cons a t =>
            rw [hall] at hdd
            rw [hdd] at hddm
            simp only [List.head?_cons, Option.some.injEq] at hddm
            rw [hall] at hsw_tail
            simp only [List.tail_cons] at hsw_tail
            rw [hall] at hnd
            exact (List.nodup_cons.mp hnd).1 (hddm ▸ hc ▸ hsw_tail)
        exact ⟨dd, sw.getD (dpi % sw.length) 0,
          by rw [hres], hdne, hddr, hsr⟩
    · have hres : choose_pair cfg pools dw dpi = (dw.take 2, dpi) := by
        unfold choose_pair
        simp only [hddm]
        rw [if_neg hcond]
      exact ⟨x, y, by rw [hres]; exact htk, hxy, hxr, hyr⟩

end Allocation

namespace Allocation

/-- On every state Phase 1 can actually return, Phase 2 places nobody:
Phase 1 only stops early when the pools are empty or fewer than two
departments remain, and Phase 2 re-checks the same conditions before
its first placement. -/
theorem phase2_after_phase1 (cfg : Cfg) :
    ∀ (halls : List ExamHall) (st : AllocState),
      (phase2 cfg (phase1 cfg halls st).2 (phase1 cfg halls st).1).allocs =
        (phase1 cfg halls st).1.allocs
  | [], st => rfl
  | h :: rest, st => by
    simp only [phase1]
    split
    · case _ hc =>
      simp only [phase2]
      rw [if_pos hc]
    · case _ hc =>
      split
      · case _ hlt =>
        simp only [phase2]
        split
        · rfl
        · have hmx : alLookup (alInsert st.matrices h.hid []) h.hid = some [] :=
            alLookup_alInsert_self _ _ _
          rw [hmx]
          simp only [Option.isNone_some, Bool.false_eq_true, if_false]
          rw [if_pos hlt]
      · exact phase2_after_phase1 cfg rest _

theorem build_pools_fold_val {nm : List (Nat × String)} :
    ∀ (input : List (Key × List Student)) (acc : Pools × List (Nat × Nat))
      (pr : Key × List StuTuple),
      pr ∈ (input.foldl
        (fun acc p =>
          (alInsert acc.1 p.1
            (p.2.map (fun st => ⟨st.sid, st.roll, st.sname, p.1.1, p.1.2,
              subj_name_of nm p.1.2⟩)),
           alInsert acc.2 p.1.1 ((alLookup acc.2 p.1.1).getD 0 + p.2.length)))
        acc).1 →
      pr ∈ acc.1 ∨ ∃ p ∈ input, pr.1 = p.1 ∧
        pr.2 = p.2.map (fun st => ⟨st.sid, st.roll, st.sname, p.1.1, p.1.2,
          subj_name_of nm p.1.2⟩)
  | [], _, _, h => Or.inl h
  | p :: input, acc, pr, h => by
    rcases build_pools_fold_val input _ pr h with h1 | ⟨p2, hp2, he⟩
    · rcases mem_alInsert h1 with h2 | h2
      · right
        refine ⟨p, List.mem_cons_self _ _, ?_, ?_⟩
        · rw [h2]
        · rw [h2]
      · exact Or.inl h2
    · exact Or.inr ⟨p2, List.mem_cons_of_mem _ hp2, he⟩

theorem build_pools_PoolsWF {nm : List (Nat × String)}
    {input : List (Key × List Student)} : PoolsWF (build_pools nm input).1 := by
  intro pr hpr stu hstu
  unfold build_pools at hpr
  rcases build_pools_fold_val input ([], []) pr hpr with h1 | ⟨p, hp, hk, hv⟩
  · exact absurd h1 (List.not_mem_nil pr)
  · rw [hv] at hstu
    rcases List.mem_map.mp hstu with ⟨s, hs, hmap⟩
    rw [← hmap, hk]
    exact ⟨rfl, rfl⟩

theorem build_pools_keys_sub {nm : List (Nat × String)}
    {input : List (Key × List Student)} {k : Key}
    (h : k ∈ (build_pools nm input).1.map Prod.fst) : ∃ p ∈ input, p.1 = k := by
  rcases List.mem_map.mp h with ⟨pr, hpr, hfst⟩
  obtain ⟨p, hp, hk, hlen⟩ := build_pools_mem hpr
  exact ⟨p, hp, by rw [hk, hfst]⟩

end Allocation

namespace Allocation

theorem hallAllocs_single (hid bq pq : Nat) (stu : StuTuple) :
    hallAllocs [⟨hid, bq, pq, stu⟩] hid = [⟨hid, bq, pq, stu⟩] := by
  simp [hallAllocs]

/-- The Phase-1 hall loop, started on a fresh hall whose two allowed
departments both still have students, ends with that hall trivial or
two-department (seats-per-bench 3, department-unique subject ids). -/
theorem fill_hall_hallinv (cfg : Cfg) (hspb : cfg.spb = 3)
    (hku : KeyUnique cfg.initKeys) (hid b target : Nat) (d0 d1 : Nat)
    (allowed0 : List Nat) (hne : d0 ≠ d1)
    (hDO : sortNats (dedupFirst allowed0) = [d0, d1]) :
    ∀ (fuel : Nat) (allowed : List Nat) (hsd : List (Nat × Nat)) (placed : Bool)
      (st : AllocState), PoolsWF st.pools →
      HallInv cfg hid d0 d1 allowed0 allowed hsd st →
      HallDone (hallAllocs (fill_hall_loop cfg hid (b + 1) target fuel allowed hsd
        placed st).allocs hid)
  | 0, allowed, hsd, placed, st, hwf, hinv => HallInv_done hinv
  | fuel + 1, allowed, hsd, placed, st, hwf, hinv => by
    rcases hinv with hI | hII | hIII
    · obtain ⟨hA, hH, hM, hAl, hr0, hr1⟩ := hI
      subst hAl
      subst hH
      have hd0m : d0 ∈ allowed := dedupFirst_sub (mem_of_sortNats
        (by rw [hDO]; exact List.mem_cons_self _ _))
      have hm0 : msize st hid = 0 := by unfold msize; rw [hM]; rfl
      simp only [fill_hall_loop]
      rw [hspb]
      split
      · case _ hcond =>
        obtain ⟨kf, lf, hkfm, hkfd, hkflk, hkfne⟩ := get_dept_remaining_pos hr0
        obtain ⟨xf, xsf, hlf⟩ : ∃ xf xsf, lf = xf :: xsf := by
          cases lf with
          | nil => exact absurd rfl hkfne
          | cons a l => exact ⟨a, l, rfl⟩
        have hkf0 : kf ∈ get_keys_for_depts st.pools cfg.initKeys allowed :=
          mem_get_keys hd0m hkfm hkfd (hlf ▸ hkflk)
        obtain ⟨kp, krest, hP, hkpd, hkpm, x, xs, hlk⟩ :
            ∃ kp krest,
              (if 2 ≤ (sortNats (dedupFirst allowed)).length then
                (get_keys_for_depts st.pools cfg.initKeys allowed).filter
                    (fun k => k.1 = (sortNats (dedupFirst allowed)).getD
                      (msize st hid % 2) 0) ++
                  (get_keys_for_depts st.pools cfg.initKeys allowed).filter
                    (fun k => ¬ k.1 = (sortNats (dedupFirst allowed)).getD
                      (msize st hid % 2) 0)
              else get_keys_for_depts st.pools cfg.initKeys allowed) = kp :: krest ∧
              kp.1 = d0 ∧ kp ∈ cfg.initKeys ∧
              ∃ x xs, alLookup st.pools kp = some (x :: xs) := by
          simp only [hDO, hm0, Nat.zero_mod, List.getD_cons_zero]
          rw [if_pos (by simp)]
          have hkfp : kf ∈ (get_keys_for_depts st.pools cfg.initKeys allowed).filter
              (fun k => decide (k.1 = d0)) :=
            List.mem_filter.mpr ⟨hkf0, by simpa using hkfd⟩
          cases hPc : (get_keys_for_depts st.pools cfg.initKeys allowed).filter
              (fun k => decide (k.1 = d0)) with
          | nil => rw [hPc] at hkfp; exact absurd hkfp (List.not_mem_nil _)
          | cons kp0 krest0 =>
            have hkp0 : kp0 ∈ (get_keys_for_depts st.pools cfg.initKeys
                allowed).filter (fun k => decide (k.1 = d0)) := by
              rw [hPc]; exact List.mem_cons_self _ _
            obtain ⟨hkp0k, hkp0d⟩ := List.mem_filter.mp hkp0
            obtain ⟨hkp0i, x0, xs0, hlk0⟩ := get_keys_sub hkp0k
            exact ⟨kp0, krest0 ++ _, List.cons_append _ _ _,
              by simpa using hkp0d, hkp0i, x0, xs0, hlk0⟩
        rw [hP]
        have hx := hwf (kp, x :: xs) (alLookup_mem hlk) x (List.mem_cons_self _ _)
        have hc : subject_conflict_in_hall [] kp.1 kp.2 = false := rfl
        have hp : pop_student st.pools kp = some (x, alInsert st.pools kp xs) := by
          simp [pop_student, hlk]
        have hs : find_valid_seat ((alLookup st.matrices hid).getD [])
            x.subjName (b + 1) 3 = some (1, 1) := by
          rw [hM]
          exact find_valid_seat_nil x.subjName b 2
        rw [try_place_head hc hp hs]
        refine fill_hall_hallinv cfg hspb hku hid b target d0 d1 allowed hne hDO
          fuel allowed _ true _ (PoolsWF_alInsert hwf hlk) ?_
        refine Or.inr (Or.inl ⟨⟨hid, 1, 1, x⟩, ⟨kp.1, kp.2, x.subjName⟩, ?_, ?_, rfl,
          hkpd, hx.1.trans hkpd, rfl, ?_, ?_⟩)
        · show hallAllocs (st.allocs ++ [⟨hid, 1, 1, x⟩]) hid = _
          rw [hallAllocs_append, hA, hallAllocs_single]
          rfl
        · show (alLookup (alInsert st.matrices hid
            (((alLookup st.matrices hid).getD []) ++
              [((1, 1), ⟨kp.1, kp.2, x.subjName⟩)])) hid).getD [] = _
          rw [alLookup_alInsert_self, hM]
          rfl
        · exact hkpm
        · show 0 < get_dept_remaining (alInsert st.pools kp xs) cfg.initKeys d1
          rw [get_dept_remaining_alInsert (by rw [hkpd]; exact hne)]
          exact hr1
      · exact @HallInv_done cfg hid d0 d1 allowed allowed [] st
          (Or.inl ⟨hA, rfl, hM, rfl, hr0, hr1⟩)
    · obtain ⟨a0, e0, hA, hM, hH, he0d, ha0d, hAl, hkm, hr1⟩ := hII
      subst hAl
      subst hH
      have hd1m : d1 ∈ allowed := dedupFirst_sub (mem_of_sortNats
        (by rw [hDO]; simp))
      have hm1 : msize st hid = 1 := by unfold msize; rw [hM]; rfl
      simp only [fill_hall_loop]
      rw [hspb]
      split
      · case _ hcond =>
        obtain ⟨kf, lf, hkfm, hkfd, hkflk, hkfne⟩ := get_dept_remaining_pos hr1
        obtain ⟨xf, xsf, hlf⟩ : ∃ xf xsf, lf = xf :: xsf := by
          cases lf with
          | nil => exact absurd rfl hkfne
          | cons a l => exact ⟨a, l, rfl⟩
        have hkf0 : kf ∈ get_keys_for_depts st.pools cfg.initKeys allowed :=
          mem_get_keys hd1m hkfm hkfd (hlf ▸ hkflk)
        obtain ⟨kp, krest, hP, hkpd, hkpm, x, xs, hlk⟩ :
            ∃ kp krest,
              (if 2 ≤ (sortNats (dedupFirst allowed)).length then
                (get_keys_for_depts st.pools cfg.initKeys allowed).filter
                    (fun k => k.1 = (sortNats (dedupFirst allowed)).getD
                      (msize st hid % 2) 0) ++
                  (get_keys_for_depts st.pools cfg.initKeys allowed).filter
                    (fun k => ¬ k.1 = (sortNats (dedupFirst allowed)).getD
                      (msize st hid % 2) 0)
              else get_keys_for_depts st.pools cfg.initKeys allowed) = kp :: krest ∧
              kp.1 = d1 ∧ kp ∈ cfg.initKeys ∧
              ∃ x xs, alLookup st.pools kp = some (x :: xs) := by
          simp only [hDO, hm1]
          rw [if_pos (by simp)]
          have hgd : ([d0, d1] : List Nat).getD (1 % 2) 0 = d1 := rfl
          simp only [hgd]
          have hkfp : kf ∈ (get_keys_for_depts st.pools cfg.initKeys allowed).filter
              (fun k => decide (k.1 = d1)) :=
            List.mem_filter.mpr ⟨hkf0, by simpa using hkfd⟩
          cases hPc : (get_keys_for_depts st.pools cfg.initKeys allowed).filter
              (fun k => decide (k.1 = d1)) with
          | nil => rw [hPc] at hkfp; exact absurd hkfp (List.not_mem_nil _)
          | cons kp0 krest0 =>
            have hkp0 : kp0 ∈ (get_keys_for_depts st.pools cfg.initKeys
                allowed).filter (fun k => decide (k.1 = d1)) := by
              rw [hPc]; exact List.mem_cons_self _ _
            obtain ⟨hkp0k, hkp0d⟩ := List.mem_filter.mp hkp0
            obtain ⟨hkp0i, x0, xs0, hlk0⟩ := get_keys_sub hkp0k
            exact ⟨kp0, krest0 ++ _, List.cons_append _ _ _,
              by simpa using hkp0d, hkp0i, x0, xs0, hlk0⟩
        rw [hP]
        have hx := hwf (kp, x :: xs) (alLookup_mem hlk) x (List.mem_cons_self _ _)
        have hsne : ¬ e0.subj = kp.2 := by
          intro hcq
          have hdeq : e0.dept = kp.1 := hku (e0.dept, e0.subj) hkm kp hkpm hcq
          exact hne ((he0d ▸ hdeq).trans hkpd)
        have hc : subject_conflict_in_hall [(e0.subj, e0.dept)] kp.1 kp.2 = false := by
          simp [subject_conflict_in_hall, alLookup, hsne]
        have hp : pop_student st.pools kp = some (x, alInsert st.pools kp xs) := by
          simp [pop_student, hlk]
        obtain ⟨q, hq⟩ := find_valid_seat_one e0 x.subjName b
        have hs : find_valid_seat ((alLookup st.matrices hid).getD [])
            x.subjName (b + 1) 3 = some q := by
          rw [hM]
          exact hq
        rw [try_place_head hc hp hs]
        refine fill_hall_hallinv cfg hspb hku hid b target d0 d1 allowed hne hDO
          fuel allowed _ true _ (PoolsWF_alInsert hwf hlk) ?_
        refine Or.inr (Or.inr ⟨a0, ?_, ⟨hid, q.1, q.2, x⟩, ?_, ?_⟩)
        · show a0 ∈ hallAllocs (st.allocs ++ [⟨hid, q.1, q.2, x⟩]) hid
          rw [hallAllocs_append, hA]
          exact List.mem_append_left _ (List.mem_cons_self _ _)
        · show (⟨hid, q.1, q.2, x⟩ : Alloc) ∈
            hallAllocs (st.allocs ++ [⟨hid, q.1, q.2, x⟩]) hid
          rw [hallAllocs_append, hA, hallAllocs_single]
          exact List.mem_append_right _ (List.mem_cons_self _ _)
        · show a0.stu.dept ≠ x.dept
          rw [ha0d, hx.1.trans hkpd]
          exact hne
      · exact @HallInv_done cfg hid d0 d1 allowed allowed [(e0.subj, e0.dept)] st
          (Or.inr (Or.inl ⟨a0, e0, hA, hM, rfl, he0d, ha0d, rfl, hkm, hr1⟩))
    · obtain ⟨t, ht, hth⟩ := fill_hall_loop_allocs cfg hid (b + 1) target (fuel + 1)
        allowed hsd placed st
      rw [ht, hallAllocs_append]
      exact Or.inr (TwoDepts_append _ hIII)

end Allocation

namespace Allocation

/-- Phase 1 keeps every hall trivial or two-department: each hall is
fresh when entered (distinct hall ids), its two chosen departments both
have students, and the loop analysis applies. -/
theorem phase1_HallDone (cfg : Cfg) (hspb : cfg.spb = 3) (hku : KeyUnique cfg.initKeys)
    (hnd : cfg.all_depts.Nodup) (hsm : cfg.smaller_depts = cfg.all_depts.tail)
    (hdd : cfg.dominant_dept = cfg.all_depts.head?) :
    ∀ (halls : List ExamHall) (st : AllocState),
      PoolsWF st.pools →
      ((halls.map (fun h => h.hid)).Nodup) →
      (∀ a ∈ st.allocs, ∀ h ∈ halls, a.hall ≠ h.hid) →
      (∀ hid, HallDone (hallAllocs st.allocs hid)) →
      (∀ hid, HallDone (hallAllocs (phase1 cfg halls st).1.allocs hid))
  | [], st, hwf, hndh, hdisj, hdone => hdone
  | h :: rest, st, hwf, hndh, hdisj, hdone => by
    simp only [phase1]
    split
    · exact hdone
    · split
      · exact hdone
      · case _ hlen0 =>
        have hlen : 2 ≤ (cfg.all_depts.filter (fun d => decide (0 <
            get_dept_remaining ({ st with
              matrices := alInsert st.matrices h.hid []
              seats := alInsert st.seats h.hid [] } : AllocState).pools
              cfg.initKeys d))).length := Nat.le_of_not_lt hlen0
        obtain ⟨x, y, hxy_eq, hxy, hxr, hyr⟩ :=
          choose_pair_spec cfg _ ({ st with
            matrices := alInsert st.matrices h.hid []
            seats := alInsert st.seats h.hid [] } : AllocState).dpi hnd hsm hdd hlen
        have hAfresh : hallAllocs st.allocs h.hid = [] := by
          refine List.filter_eq_nil_iff.mpr ?_
          intro a ha
          simp only [decide_eq_true_eq]
          exact hdisj a ha h (List.mem_cons_self _ _)
        have hDOp : ∃ d0 d1, d0 ≠ d1 ∧
            sortNats (dedupFirst (choose_pair cfg ({ st with
              matrices := alInsert st.matrices h.hid []
              seats := alInsert st.seats h.hid [] } : AllocState).pools
              (cfg.all_depts.filter (fun d => decide (0 < get_dept_remaining
                ({ st with
                  matrices := alInsert st.matrices h.hid []
                  seats := alInsert st.seats h.hid [] } : AllocState).pools
                cfg.initKeys d))) ({ st with
              matrices := alInsert st.matrices h.hid []
              seats := alInsert st.seats h.hid [] } : AllocState).dpi).1) = [d0, d1] ∧
            0 < get_dept_remaining st.pools cfg.initKeys d0 ∧
            0 < get_dept_remaining st.pools cfg.initKeys d1 := by
          rw [hxy_eq, dedupFirst_pair hxy, sortNats_pair]
          by_cases hle : x ≤ y
          · rw [if_pos hle]
            exact ⟨x, y, hxy, rfl, hxr, hyr⟩
          · rw [if_neg hle]
            exact ⟨y, x, (Ne.symm hxy), rfl, hyr, hxr⟩
        obtain ⟨d0, d1, hne, hDO, hr0, hr1⟩ := hDOp
        refine phase1_HallDone cfg hspb hku hnd hsm hdd rest _ ?_ ?_ ?_ ?_
        · exact fill_hall_loop_PoolsWF cfg h.hid _ _ _ _ _ _ _ hwf
        · exact (List.nodup_cons.mp (by simpa using hndh)).2
        · obtain ⟨t, ht, hth⟩ := fill_hall_loop_allocs cfg h.hid
            (hall_benches cfg h) (hall_target cfg h) _ _ [] true _
          rw [ht]
          intro a ha h2 hh2
          rcases List.mem_append.mp ha with hx | hx
          · exact hdisj a hx h2 (List.mem_cons_of_mem _ hh2)
          · rw [hth a hx]
            intro hc
            have : h.hid ∈ rest.map (fun h => h.hid) :=
              List.mem_map.mpr ⟨h2, hh2, hc.symm⟩
            exact (List.nodup_cons.mp (by simpa using hndh)).1 this
        · intro hid
          by_cases hhid : hid = h.hid
          · subst hhid
            cases hbn : hall_benches cfg h with
            | zero =>
              rw [fill_hall_loop_benches_zero]
              exact hdone h.hid
            | succ bn =>
              refine fill_hall_hallinv cfg hspb hku h.hid bn (hall_target cfg h) d0 d1
                _ hne hDO _ _ [] true _ hwf ?_
              refine Or.inl ⟨hAfresh, rfl, ?_, rfl, hr0, hr1⟩
              rw [alLookup_alInsert_self]
              rfl
          · obtain ⟨t, ht, hth⟩ := fill_hall_loop_allocs cfg h.hid
              (hall_benches cfg h) (hall_target cfg h) _ _ [] true _
            rw [ht, hallAllocs_append]
            have htnil : hallAllocs t hid = [] := by
              refine List.filter_eq_nil_iff.mpr ?_
              intro a ha
              simp only [decide_eq_true_eq]
              rw [hth a ha]
              exact fun hc => hhid hc.symm
            rw [htnil, List.append_nil]
            exact hdone hid

end Allocation

namespace Allocation

/-- C8 (amended): with 3 seats per bench, distinct hall ids and
department-unique subject ids, every hall that receives at least two
seat assignments contains assignments from at least two distinct
department ids. -/
theorem allocate_seats_hall_two_departments (input : List (Key × List Student))
    (halls : List ExamHall) (bph : Nat) (tc : Option Nat) (nm : List (Nat × String))
    (hnd : (halls.map (fun h => h.hid)).Nodup) (huniq : deptUniqueKeys input)
    (hid : Nat)
    (h2 : 2 ≤ (hallAllocs (allocate_seats input halls 3 bph tc nm).allocations
      hid).length) :
    ∃ a1 ∈ hallAllocs (allocate_seats input halls 3 bph tc nm).allocations hid,
      ∃ a2 ∈ hallAllocs (allocate_seats input halls 3 bph tc nm).allocations hid,
        a1.stu.dept ≠ a2.stu.dept := by
  have hEQ : (allocate_seats input halls 3 bph tc nm).allocations =
      (phase1
        { spb := 3
          benches_per_hall := bph
          target_capacity := tc
          initKeys := (build_pools nm input).1.map Prod.fst
          all_depts := sortLe
            (fun a b => decide ((alLookup (build_pools nm input).2 b).getD 0 ≤
              (alLookup (build_pools nm input).2 a).getD 0))
            ((build_pools nm input).2.map Prod.fst)
          smaller_depts := (sortLe
            (fun a b => decide ((alLookup (build_pools nm input).2 b).getD 0 ≤
              (alLookup (build_pools nm input).2 a).getD 0))
            ((build_pools nm input).2.map Prod.fst)).tail
          dominant_dept := (sortLe
            (fun a b => decide ((alLookup (build_pools nm input).2 b).getD 0 ≤
              (alLookup (build_pools nm input).2 a).getD 0))
            ((build_pools nm input).2.map Prod.fst)).head? }
        (sortLe (fun h1 h2 => strLe (hall_key h1) (hall_key h2)) halls)
        ⟨(build_pools nm input).1, [], [], [], 0⟩).1.allocs :=
    (final_fold_allocs _ _).trans (phase2_after_phase1 _ _ _)
  rw [hEQ] at h2 ⊢
  have hku : KeyUnique ((build_pools nm input).1.map Prod.fst) := by
    intro k1 h1 k2 hh2 hsub
    obtain ⟨p1, hp1, he1⟩ := build_pools_keys_sub h1
    obtain ⟨p2, hp2, he2⟩ := build_pools_keys_sub hh2
    have := huniq p1 hp1 p2 hp2 (by rw [he1, he2]; exact hsub)
    rw [← he1, ← he2]
    exact this
  have htd : (((build_pools nm input).2).map Prod.fst).Nodup :=
    build_pools_totals_nodup input ([], []) (by simp)
  have hadnd : (sortLe
      (fun a b => decide ((alLookup (build_pools nm input).2 b).getD 0 ≤
        (alLookup (build_pools nm input).2 a).getD 0))
      ((build_pools nm input).2.map Prod.fst)).Nodup :=
    (sortLe_perm _ _).nodup_iff.mpr htd
  have hhsnd : ((sortLe (fun h1 h2 => strLe (hall_key h1) (hall_key h2)) halls).map
      (fun h => h.hid)).Nodup :=
    (((sortLe_perm _ halls)).map (fun h => h.hid)).nodup_iff.mpr hnd
  have hall := phase1_HallDone
    { spb := 3
      benches_per_hall := bph
      target_capacity := tc
      initKeys := (build_pools nm input).1.map Prod.fst
      all_depts := sortLe
        (fun a b => decide ((alLookup (build_pools nm input).2 b).getD 0 ≤
          (alLookup (build_pools nm input).2 a).getD 0))
        ((build_pools nm input).2.map Prod.fst)
      smaller_depts := (sortLe
        (fun a b => decide ((alLookup (build_pools nm input).2 b).getD 0 ≤
          (alLookup (build_pools nm input).2 a).getD 0))
        ((build_pools nm input).2.map Prod.fst)).tail
      dominant_dept := (sortLe
        (fun a b => decide ((alLookup (build_pools nm input).2 b).getD 0 ≤
          (alLookup (build_pools nm input).2 a).getD 0))
        ((build_pools nm input).2.map Prod.fst)).head? }
    rfl hku hadnd rfl rfl
    (sortLe (fun h1 h2 => strLe (hall_key h1) (hall_key h2)) halls)
    ⟨(build_pools nm input).1, [], [], [], 0⟩
    build_pools_PoolsWF hhsnd
    (by intro a ha; exact absurd ha (List.not_mem_nil a))
    (by intro hid2; exact Or.inl (by simp [hallAllocs]))
    hid
  rcases hall with hlen | htwo
  · exact absurd h2 (by omega)
  · exact htwo

end Allocation

namespace Allocation

/-- C8 (counterexample to the claim as stated): with 2 seats per bench,
a 2-seat hall receives both students of department 1 (the department-2
student is blocked by the adjacency rule on the middle seat), so a hall
with two assignments holds a single department. -/
theorem allocate_seats_two_assignments_one_department :
    (hallAllocs (allocate_seats
      [((1, 11), [Student.mk 101 "r1" "A1"]),
       ((1, 12), [Student.mk 102 "r2" "A2"]),
       ((2, 21), [Student.mk 201 "r3" "B1"])]
      [⟨1, "H1", 2⟩] 2 15 none [(11, "X"), (12, "Y"), (21, "X")]).allocations
      1).length = 2 ∧
    ∀ a ∈ hallAllocs (allocate_seats
      [((1, 11), [Student.mk 101 "r1" "A1"]),
       ((1, 12), [Student.mk 102 "r2" "A2"]),
       ((2, 21), [Student.mk 201 "r3" "B1"])]
      [⟨1, "H1", 2⟩] 2 15 none [(11, "X"), (12, "Y"), (21, "X")]).allocations 1,
      a.stu.dept = 1 := by decide

/-- Witness for the amended C8: one 45-seat hall, two one-student
departments with distinct subject ids; the hall receives two assignments
and they span two departments. -/
theorem allocate_seats_hall_two_departments_witness :
    (([⟨1, "H1", 45⟩] : List ExamHall).map (fun h => h.hid)).Nodup ∧
    deptUniqueKeys [((1, 11), [Student.mk 101 "r1" "A1"]),
      ((2, 21), [Student.mk 201 "r3" "B1"])] ∧
    2 ≤ (hallAllocs (allocate_seats
      [((1, 11), [Student.mk 101 "r1" "A1"]), ((2, 21), [Student.mk 201 "r3" "B1"])]
      [⟨1, "H1", 45⟩] 3 15 none [(11, "X"), (21, "Y")]).allocations 1).length ∧
    ∃ a1 ∈ hallAllocs (allocate_seats
      [((1, 11), [Student.mk 101 "r1" "A1"]), ((2, 21), [Student.mk 201 "r3" "B1"])]
      [⟨1, "H1", 45⟩] 3 15 none [(11, "X"), (21, "Y")]).allocations 1,
      ∃ a2 ∈ hallAllocs (allocate_seats
        [((1, 11), [Student.mk 101 "r1" "A1"]), ((2, 21), [Student.mk 201 "r3" "B1"])]
        [⟨1, "H1", 45⟩] 3 15 none [(11, "X"), (21, "Y")]).allocations 1,
        a1.stu.dept ≠ a2.stu.dept := by
  have hU : deptUniqueKeys [((1, 11), [Student.mk 101 "r1" "A1"]),
      ((2, 21), [Student.mk 201 "r3" "B1"])] := by
    unfold deptUniqueKeys
    decide
  refine ⟨by decide, hU, by decide, ?_⟩
  exact allocate_seats_hall_two_departments _ _ 15 none _ (by decide) hU 1 (by decide)

end Allocation
